import Mathlib

/-!
Shallow embedding of the max-flow repository (file `1.py`): the Edmonds–Karp
engine `edmonds_karp`, the example network `build_logistics_graph`, and the
flow decomposition `decompose_terminal_flows`.

Python dictionaries are modelled as insertion-ordered association lists
(`Dict`): assignment to a present key updates in place, assignment to an
absent key appends, and iteration follows the list order, exactly as CPython
dictionaries behave.  A lookup of an absent key in a plain dictionary is a
`KeyError`; `defaultdict` lookups are total.  Loops that Python runs without
a syntactic bound (`while True`, the recursive walks) are modelled with
explicit fuel, and running out of fuel is reported by a distinguished
constructor, never conflated with a `KeyError` or with a normal result.
Python's `float('inf')` seeding the bottleneck computation is modelled as
`none : Option Int`.
-/

set_option autoImplicit false
set_option maxRecDepth 4000
set_option linter.unusedSectionVars false

namespace FlowSpec

/-- A Python `dict`, as an insertion-ordered association list. -/
abbrev Dict (α β : Type) : Type := List (α × β)

variable {α : Type} [DecidableEq α] {β : Type}

/-- `d[k]` as a total lookup: `none` means the key is absent. -/
def dget? : Dict α β → α → Option β
  | [], _ => none
  | (k', v) :: rest, k => if k' = k then some v else dget? rest k

/-- `k in d`. -/
def dmem (d : Dict α β) (k : α) : Bool := (dget? d k).isSome

/-- `d[k] = v`: update in place when the key is present, append otherwise,
preserving CPython's dictionary iteration order. -/
def dset : Dict α β → α → β → Dict α β
  | [], k, v => [(k, v)]
  | (k', v') :: rest, k, v =>
    if k' = k then (k, v) :: rest else (k', v') :: dset rest k v

/-- `list(d.keys())`. -/
def dkeys (d : Dict α β) : List α := d.map Prod.fst

/-- A capacity graph / residual graph / flow map:
`graph[u][v]` is the integer attached to the directed edge `(u, v)`. -/
abbrev Graph (α : Type) : Type := Dict α (Dict α Int)

/-- The value attached to the pair `(u, v)`, with absent entries read as `0`
(the spec's "edges not present imply zero capacity"). -/
def edgeVal (g : Graph α) (u v : α) : Int :=
  (dget? ((dget? g u).getD []) v).getD 0

/-- The node set of a capacity graph: every key together with every
target of an edge, in first-appearance order. -/
def nodeList (g : Graph α) : List α :=
  g.foldl (fun acc uadj =>
    let acc := if uadj.1 ∈ acc then acc else acc ++ [uadj.1]
    uadj.2.foldl (fun acc vc =>
      if vc.1 ∈ acc then acc else acc ++ [vc.1]) acc) []

/-- The pair `(u, v)` has an entry (of any value) in the nested dictionary. -/
def hasEdge (d : Graph α) (u v : α) : Bool :=
  (dget? ((dget? d u).getD []) v).isSome

/-- Membership in the node set of a capacity graph: a key of the outer
dictionary, or a target of some edge. -/
def isNode (g : Graph α) (x : α) : Bool :=
  dmem g x || g.any fun uadj => dmem uadj.2 x

/-- Well-formedness inherited from Python dictionaries: keys are unique at
both levels. -/
def DictWF (g : Graph α) : Prop :=
  (dkeys g).Nodup ∧ ∀ uadj ∈ g, (dkeys uadj.2).Nodup

/-- The body of the reverse-edge loop of `edmonds_karp`, for one edge
`(u, v)` of the graph: `if v not in residual: residual[v] = {}` and then
`if u not in residual[v]: residual[v][u] = 0`. -/
def addRev (u : α) (res : Graph α) (v : α) : Graph α :=
  let res := if dmem res v then res else dset res v []
  let inner := (dget? res v).getD []
  if dmem inner u then res else dset res v (dset inner u 0)

/-- `residual = {u: dict(graph[u]) for u in graph}` followed by the loop that
runs `addRev` for every edge `(u, v)` of the graph. -/
def buildResidual (g : Graph α) : Graph α :=
  (dkeys g).foldl (fun res u =>
    ((dget? g u).getD []).foldl (fun res vc => addRev u res vc.1) res) g

/-- Outcome of a modelled Python computation: a value, an uncaught
`KeyError`, or non-termination within the modelled fuel. -/
inductive Res (γ : Type) where
  | ok (val : γ)
  | keyError
  | fuelOut
deriving DecidableEq

/-- The BFS inner `for neighbor, capacity in residual[current].items()` loop:
skips non-positive residual capacities (short-circuit, so no `KeyError` for
those), records the discovering predecessor of each newly seen node, appends
it to the queue, and `break`s as soon as the sink is discovered.  `none`
models the `KeyError` raised by `parent[neighbor]` on an unknown node. -/
def bfsScan (sink current : α) :
    List (α × Int) → Dict α (Option α) → List α →
    Option (Dict α (Option α) × List α)
  | [], parent, queue => some (parent, queue)
  | (v, c) :: rest, parent, queue =>
    if c > 0 then
      match dget? parent v with
      | none => none
      | some (some _) => bfsScan sink current rest parent queue
      | some none =>
        let parent := dset parent v (some current)
        let queue := queue ++ [v]
        if v = sink then some (parent, queue)
        else bfsScan sink current rest parent queue
    else bfsScan sink current rest parent queue

/-- The BFS `while queue and parent[sink] is None` loop.  The queue emptiness
test comes first, exactly as Python short-circuits; `parent[sink]` and
`residual[current]` lookups of absent keys are `KeyError`s. -/
def bfsLoop (residual : Graph α) (sink : α) :
    Nat → List α → Dict α (Option α) → Res (Dict α (Option α))
  | 0, _, _ => .fuelOut
  | _ + 1, [], parent => .ok parent
  | fuel + 1, current :: rest, parent =>
    match dget? parent sink with
    | none => .keyError
    | some (some _) => .ok parent
    | some none =>
      match dget? residual current with
      | none => .keyError
      | some adj =>
        match bfsScan sink current adj parent rest with
        | none => .keyError
        | some (parent, queue) => bfsLoop residual sink fuel queue parent

/-- One BFS phase: `parent = {node: None for node in residual}`,
`parent[source] = source`, `queue = deque([source])`, then the loop.
Each loop iteration pops one node and discovers only fresh ones, so
`parent.length + 2` units of fuel always suffice. -/
def bfs (residual : Graph α) (source sink : α) : Res (Dict α (Option α)) :=
  let parent := dset ((dkeys residual).map fun n => (n, (none : Option α)))
      source (some source)
  bfsLoop residual sink (parent.length + 2) [source] parent

/-- Walking `parent` pointers from the sink back to the source, collecting the
path edges `(prev, node)` in the order Python visits them.  `parent[node]`
absent, or equal to Python's `None` (which would make the subsequent
`residual[None][node]` lookups fail), is a `KeyError`; a cyclic parent chain
never reaches the source and exhausts its fuel, as Python would loop. -/
def walkChain (parent : Dict α (Option α)) (source : α) :
    Nat → α → Res (List (α × α))
  | 0, _ => .fuelOut
  | fuel + 1, node =>
    if node = source then .ok []
    else
      match dget? parent node with
      | none => .keyError
      | some none => .keyError
      | some (some prev) =>
        match walkChain parent source fuel prev with
        | .ok chain => .ok ((prev, node) :: chain)
        | .keyError => .keyError
        | .fuelOut => .fuelOut

/-- `path_flow = min(path_flow, residual[prev][node])` along the recovered
path, seeded with `float('inf')` (modelled as `none`).  A lookup of an
absent residual entry is a `KeyError` (`none` result). -/
def pathMin (residual : Graph α) :
    List (α × α) → Option Int → Option (Option Int)
  | [], acc => some acc
  | (p, n) :: rest, acc =>
    match dget? residual p with
    | none => none
    | some adj =>
      match dget? adj n with
      | none => none
      | some c =>
        pathMin residual rest
          (match acc with | none => some c | some a => some (min a c))

/-- `flow[u][v] += d` on the `defaultdict(lambda: defaultdict(int))`:
absent outer and inner entries are created with default `0`. -/
def fadd (f : Graph α) (u v : α) (d : Int) : Graph α :=
  let inner := (dget? f u).getD []
  dset f u (dset inner v ((dget? inner v).getD 0 + d))

/-- `residual[u][v] += d` on the plain residual dictionary: an absent entry
is a `KeyError` (`none`). -/
def resAdd (res : Graph α) (u v : α) (d : Int) : Option (Graph α) :=
  match dget? res u with
  | none => none
  | some adj =>
    match dget? adj v with
    | none => none
    | some c => some (dset res u (dset adj v (c + d)))

/-- The augmentation walk: for every path edge `(prev, node)`, in order,
`flow[prev][node] += pf`, `flow[node][prev] -= pf`,
`residual[prev][node] -= pf`, `residual[node][prev] += pf`. -/
def augment (pf : Int) :
    List (α × α) → Graph α → Graph α → Option (Graph α × Graph α)
  | [], res, flow => some (res, flow)
  | (p, n) :: rest, res, flow =>
    let flow := fadd flow p n pf
    let flow := fadd flow n p (-pf)
    match resAdd res p n (-pf) with
    | none => none
    | some res =>
      match resAdd res n p pf with
      | none => none
      | some res => augment pf rest res flow

/-- Result of `edmonds_karp`: the returned pair, an uncaught `KeyError`, or
non-termination within the modelled fuel.  `maxFlow` is `none` when Python's
accumulator has become `float('inf')` (possible only while the loop is
still running, on an empty recovered path). -/
inductive EKRes (α : Type) where
  | ok (maxFlow : Option Int) (flow : Graph α)
  | keyError
  | fuelOut
deriving DecidableEq

/-- Python `max_flow + path_flow` where either side may be `float('inf')`. -/
def addInf : Option Int → Option Int → Option Int
  | some a, some b => some (a + b)
  | _, _ => none

/-- The `while True` augmenting loop of `edmonds_karp`: BFS for a shortest
augmenting path, exit when `parent[sink] is None`, otherwise recover the
path, take its bottleneck, push it along the path, and accumulate it.
When the recovered path is empty (only possible for `sink = source`) the
bottleneck stays `float('inf')`: the update walk visits no edge and the
accumulator is poisoned to `none`, and the loop never exits — as in Python,
where `max_flow` becomes `inf` forever. -/
def ekLoop (source sink : α) :
    Nat → Graph α → Graph α → Option Int → EKRes α
  | 0, _, _, _ => .fuelOut
  | fuel + 1, residual, flow, maxFlow =>
    match bfs residual source sink with
    | .keyError => .keyError
    | .fuelOut => .fuelOut
    | .ok parent =>
      match dget? parent sink with
      | none => .keyError
      | some none => .ok maxFlow flow
      | some (some _) =>
        match walkChain parent source (parent.length + 1) sink with
        | .keyError => .keyError
        | .fuelOut => .fuelOut
        | .ok chain =>
          match pathMin residual chain none with
          | none => .keyError
          | some none => ekLoop source sink fuel residual flow none
          | some (some b) =>
            match augment b chain residual flow with
            | none => .keyError
            | some (residual, flow) =>
              ekLoop source sink fuel residual flow (addInf maxFlow (some b))

/-- Sum of the positive capacities leaving `source`: every augmentation
removes at least one unit from this stock of residual capacity, so it bounds
the number of augmentations. -/
def posOutCap (g : Graph α) (source : α) : Int :=
  ((dget? g source).getD []).foldl (fun acc vc => acc + max vc.2 0) 0

/-- Fuel that provably suffices for the augmenting loop whenever
`source ≠ sink`: one iteration per unit of positive capacity out of the
source, plus the final failing BFS. -/
def ekFuel (g : Graph α) (source : α) : Nat :=
  (posOutCap g source).toNat + 2

/-- `edmonds_karp(graph, source, sink)` from `1.py`. -/
def edmonds_karp (g : Graph α) (source sink : α) : EKRes α :=
  ekLoop source sink (ekFuel g source) (buildResidual g) [] (some 0)

/-- `graph[u][v] = c` on the `defaultdict(dict)` used by
`build_logistics_graph`: an absent outer entry is created empty. -/
def gset (g : Graph α) (u v : α) (c : Int) : Graph α :=
  dset g u (dset ((dget? g u).getD []) v c)

/-- `build_logistics_graph()` from `1.py`: the fixed logistics network, its
super-source `"S"`, super-sink `"T"`, and the node-name lists. -/
def shops : List String := (List.range 14).map fun i => "Shop " ++ toString (i + 1)

def terminals : List String := ["Terminal 1", "Terminal 2"]

def warehouses : List String :=
  ["Warehouse 1", "Warehouse 2", "Warehouse 3", "Warehouse 4"]

def build_logistics_graph : Graph String :=
  let g : Graph String := []
  let g := gset g "S" "Terminal 1" (25 + 20 + 15)
  let g := gset g "S" "Terminal 2" (15 + 30 + 10)
  let g := gset g "Terminal 1" "Warehouse 1" 25
  let g := gset g "Terminal 1" "Warehouse 2" 20
  let g := gset g "Terminal 1" "Warehouse 3" 15
  let g := gset g "Terminal 2" "Warehouse 3" 15
  let g := gset g "Terminal 2" "Warehouse 4" 30
  let g := gset g "Terminal 2" "Warehouse 2" 10
  let g := gset g "Warehouse 1" "Shop 1" 15
  let g := gset g "Warehouse 1" "Shop 2" 10
  let g := gset g "Warehouse 1" "Shop 3" 20
  let g := gset g "Warehouse 2" "Shop 4" 15
  let g := gset g "Warehouse 2" "Shop 5" 10
  let g := gset g "Warehouse 2" "Shop 6" 25
  let g := gset g "Warehouse 3" "Shop 7" 20
  let g := gset g "Warehouse 3" "Shop 8" 15
  let g := gset g "Warehouse 3" "Shop 9" 10
  let g := gset g "Warehouse 4" "Shop 10" 20
  let g := gset g "Warehouse 4" "Shop 11" 10
  let g := gset g "Warehouse 4" "Shop 12" 15
  let g := gset g "Warehouse 4" "Shop 13" 5
  let g := gset g "Warehouse 4" "Shop 14" 10
  shops.foldl (fun g shop => gset g shop "T" (10 ^ 9)) g

/-- `min(capacity, bottleneck)` where the bottleneck may still be
`float('inf')` (`none`); the result is always finite. -/
def minCap (c : Int) : Option Int → Int
  | none => c
  | some b => min c b

/-- The `sub_flow` construction of `decompose_terminal_flows`: keep only
edges between valid nodes carrying positive flow, in iteration order. -/
def buildSubFlow (valid : List α) (flow : Graph α) : Graph α :=
  flow.foldl (fun sf uin =>
    if uin.1 ∈ valid then
      uin.2.foldl (fun sf vf =>
        if vf.1 ∈ valid ∧ vf.2 > 0 then
          dset sf uin.1 (dset ((dget? sf uin.1).getD []) vf.1 vf.2)
        else sf) sf
    else sf) []

/-- A pending step of the recursive `dfs` of `decompose_terminal_flows`:
either entering a node, or scanning the remainder of a node's neighbour
list. -/
inductive DfsCall (α : Type) where
  | visit (node : α)
  | scan (node : α) (adj : List (α × Int))

/-- The recursive `dfs(node, visited)` of `decompose_terminal_flows`, as a
single structurally recursive step function (one unit of fuel per step, so
that the definition stays kernel-computable).

`.visit node`: return `([node], inf)` at a shop, otherwise add `node` to
the (shared, mutated) visited set and scan its `sub_flow` neighbours.
`.scan node adj`: recurse into the first unvisited positive neighbour; on
success return the extended path with `min(capacity, bottleneck)`; on
failure keep scanning — the failed branch stays in `visited`, exactly as
Python shares one `visited` set across the whole attempt.  The result
carries the found path (if any), its bottleneck (`none` = `inf`), and the
visited set as Python leaves it. -/
def dfsStep (shops : List α) (subFlow : Graph α) :
    Nat → DfsCall α → List α →
    Res (Option (List α) × Option Int × List α)
  | 0, _, _ => .fuelOut
  | fuel + 1, .visit node, visited =>
    if node ∈ shops then .ok (some [node], none, visited)
    else
      let visited := visited ++ [node]
      match dget? subFlow node with
      | none => .ok (none, some 0, visited)
      | some adj =>
        match dfsStep shops subFlow fuel (.scan node adj) visited with
        | .ok (some path, b, visited) => .ok (some (node :: path), b, visited)
        | r => r
  | _ + 1, .scan _ [], visited => .ok (none, some 0, visited)
  | fuel + 1, .scan node ((v, c) :: rest), visited =>
    if c > 0 ∧ v ∉ visited then
      match dfsStep shops subFlow fuel (.visit v) visited with
      | .ok (some path, b, visited) =>
        .ok (some path, some (minCap c b), visited)
      | .ok (none, _, visited) =>
        dfsStep shops subFlow fuel (.scan node rest) visited
      | .keyError => .keyError
      | .fuelOut => .fuelOut
    else dfsStep shops subFlow fuel (.scan node rest) visited

/-- `dfs(node, visited)`: enter at a `.visit` step. -/
def dfs (shops : List α) (subFlow : Graph α) (fuel : Nat) (node : α)
    (visited : List α) : Res (Option (List α) × Option Int × List α) :=
  dfsStep shops subFlow fuel (.visit node) visited

/-- Fuel that always suffices for `dfs`: a DFS attempt performs at most one
`.visit` step per node it can ever reach (each non-shop visit permanently
joins `visited`, a shop visit ends the attempt) and one `.scan` step per
adjacency entry of each visited node, so the generous quadratic bound
`(2 + entries)^2 + 2` in the total number `entries` of adjacency entries of
`sub_flow` covers every attempt. -/
def dfsFuel (subFlow : Graph α) : Nat :=
  let entries := (subFlow.map fun (uin : α × Dict α Int) => uin.2.length).sum
  (2 + entries) * (2 + entries) + 2

/-- `sub_flow[u][v] -= bottleneck` along consecutive nodes of the found
path; a missing entry would be a Python `KeyError` (`none`). -/
def subPath (b : Int) : Graph α → List α → Option (Graph α)
  | sf, u :: v :: rest =>
    match dget? sf u with
    | none => none
    | some adj =>
      match dget? adj v with
      | none => none
      | some c => subPath b (dset sf u (dset adj v (c - b))) (v :: rest)
  | sf, _ => some sf

/-- Fuel that always suffices for the `while True` loop of
`decompose_terminal_flows`: every successful iteration removes at least one
unit of positive flow from `sub_flow`. -/
def decomposeFuel (subFlow : Graph α) : Nat :=
  2 + ((subFlow.map fun (uin : α × Dict α Int) =>
    (uin.2.map fun (vf : α × Int) => max vf.2 0).sum).sum).toNat

/-- The `while True` loop of `decompose_terminal_flows`: run a fresh DFS
from the terminal; stop when no path is found or the bottleneck is `0`;
otherwise credit the bottleneck to the final shop and subtract it along the
path.  A bottleneck of `inf` (`none`) happens only when the path is the
single node `terminal` (then `terminal ∈ shops`); Python would then add
`float('inf')` to the result and loop forever, so the accumulated result is
never returned — we accumulate `0` in that doomed state. -/
def decomposeLoop (shopList : List α) (terminal : α) :
    Nat → Graph α → Dict α Int → Res (Dict α Int)
  | 0, _, _ => .fuelOut
  | fuel + 1, subFlow, result =>
    match dfs shopList subFlow (dfsFuel subFlow) terminal [] with
    | .fuelOut => .fuelOut
    | .keyError => .keyError
    | .ok (none, _, _) => .ok result
    | .ok (some path, bottleneck, _) =>
      if bottleneck = some 0 then .ok result
      else
        match path.getLast? with
        | none => .keyError
        | some shop =>
          let result := dset result shop
            ((dget? result shop).getD 0 + (bottleneck.getD 0))
          match subPath (bottleneck.getD 0) subFlow path with
          | none => .keyError
          | some subFlow => decomposeLoop shopList terminal fuel subFlow result

/-- `decompose_terminal_flows(terminal, flow, terminals, warehouses, shops)`
from `1.py`.  The second component of the returned pair is the caller's
`flow` dictionary as the function leaves it: the source only reads `flow`
(iterating its existing entries while building the local `sub_flow` copy)
and applies all bottleneck subtractions to `sub_flow`, so `flow` is
returned unchanged. -/
def decompose_terminal_flows (terminal : α) (flow : Graph α)
    (terminalList warehouseList shopList : List α) :
    Res (Dict α Int) × Graph α :=
  let valid := terminalList ++ warehouseList ++ shopList
  let subFlow := buildSubFlow valid flow
  (decomposeLoop shopList terminal (decomposeFuel subFlow) subFlow [], flow)

/-- The `max_flow` component of an `edmonds_karp` result (`none` when the
call did not return normally). -/
def maxFlowOf : EKRes α → Option (Option Int)
  | .ok v _ => some v
  | _ => none

/-- The flow-map component of an `edmonds_karp` result (empty when the
call did not return normally). -/
def flowOf : EKRes α → Graph α
  | .ok _ f => f
  | _ => []

/-- Reachability along edges with positive value. -/
def PosReach (g : Graph α) (s x : α) : Prop :=
  Relation.ReflTransGen (fun a b => 0 < edgeVal g a b) s x

/-- The nodes of a recovered augmenting path, sink first: the path edges
are `(prev, node)` pairs collected from the sink down to the source. -/
def pathNodes (ch : List (α × α)) (top : α) : List α :=
  top :: ch.map Prod.fst

/-- `ParentPath parent s x ch`: following `parent` pointers from `x` down
to `s` yields exactly the edge list `ch` (sink-side first), visiting no
node twice. -/
inductive ParentPath (parent : Dict α (Option α)) (s : α) : α → List (α × α) → Prop
  | nil : ParentPath parent s s []
  | cons {x p : α} {ch : List (α × α)} :
      x ≠ s → dget? parent x = some (some p) →
      x ∉ pathNodes ch p → ParentPath parent s p ch →
      ParentPath parent s x ((p, x) :: ch)

/-- What one inner BFS scan does to the search state: already-discovered
entries survive, keys are unchanged, any new discovery is a positive
neighbour of `current`, new queue entries point to `current`, the scan is
exhaustive unless the sink was discovered, and the quantity
`|queue| + #undiscovered` is preserved. -/
structure ScanSpec (sink current : α) (adj : List (α × Int))
    (parent : Dict α (Option α)) (queue : List α)
    (parent' : Dict α (Option α)) (queue' : List α) : Prop where
  keep : ∀ x y, dget? parent x = some (some y) → dget? parent' x = some (some y)
  keysEq : dkeys parent' = dkeys parent
  newdisc : ∀ x y, dget? parent' x = some (some y) →
    dget? parent x = some (some y) ∨
      (y = current ∧ dget? parent x = some none ∧ ∃ c, (x, c) ∈ adj ∧ 0 < c)
  queueNew : ∀ x ∈ queue', x ∈ queue ∨ dget? parent' x = some (some current)
  queueMono : ∀ x ∈ queue, x ∈ queue'
  newInQueue : ∀ x y, dget? parent' x = some (some y) →
    dget? parent x = some none → x ∈ queue'
  complete : (∀ vc ∈ adj, 0 < vc.2 → ∃ y, dget? parent' vc.1 = some (some y))
    ∨ (∃ y, dget? parent' sink = some (some y))
  measure : queue'.length + parent'.countP (fun e => e.2.isNone)
    = queue.length + parent.countP (fun e => e.2.isNone)

/-- Invariant of the BFS `parent` dictionary: its keys are the residual
keys plus the source, the source points to itself, every discovered node
was reached over an edge of positive residual capacity, and following
parent pointers from any discovered node yields a simple path back to the
source. -/
structure BfsInv (res : Graph α) (s : α) (parent : Dict α (Option α)) : Prop where
  keys : ∀ x, (dget? parent x).isSome = true ↔ (x ∈ dkeys res ∨ x = s)
  src : dget? parent s = some (some s)
  edge : ∀ x p, x ≠ s → dget? parent x = some (some p) → 0 < edgeVal res p x
  ground : ∀ x p, dget? parent x = some (some p) → ∃ ch, ParentPath parent s x ch
  nodupKeys : (dkeys parent).Nodup

/-- Sum of `flow(u, v)` over `u` in a node list: the net flow into `v`. -/
def netInto (f : Graph α) (L : List α) (v : α) : Int :=
  (L.map fun u => edgeVal f u v).sum

/-- Sum of `flow(v, w)` over `w` in a node list: the net flow out of `v`. -/
def netOut (f : Graph α) (L : List α) (v : α) : Int :=
  (L.map fun w => edgeVal f v w).sum

/-- Sum of the positive parts of `flow(u, v)` over `u`: the inflow of `v`. -/
def inflowSum (f : Graph α) (L : List α) (v : α) : Int :=
  (L.map fun u => max (edgeVal f u v) 0).sum

/-- Sum of the positive parts of `flow(v, w)` over `w`: the outflow of `v`. -/
def outflowSum (f : Graph α) (L : List α) (v : α) : Int :=
  (L.map fun w => max (edgeVal f v w) 0).sum

/-- All capacities non-negative (spec: "capacities are non-negative"). -/
def NonnegCap (g : Graph α) : Prop := ∀ u v, 0 ≤ edgeVal g u v

/-- How often the ordered pair `(u, v)` occurs in an edge list. -/
def countPair : List (α × α) → α → α → Int
  | [], _, _ => 0
  | e :: rest, u, v => (if e = (u, v) then 1 else 0) + countPair rest u v

/-- How often `a` occurs in a list. -/
def countElem : List α → α → Int
  | [], _ => 0
  | x :: rest, a => (if x = a then 1 else 0) + countElem rest a

/-- Invariant of the augmenting loop relating the residual graph and flow
map to the capacity graph: the residual is capacity minus flow, flow is
antisymmetric and conserved at interior nodes, its support sits inside the
node set, and the residual keeps the shape of the freshly built residual
graph (entries, keys, inner uniqueness); residual non-negativity holds
whenever capacities are non-negative. -/
structure EKInv (g : Graph α) (s t : α) (residual flow : Graph α) : Prop where
  resCap : ∀ u v, edgeVal residual u v = edgeVal g u v - edgeVal flow u v
  antisym : ∀ u v, edgeVal flow u v = - edgeVal flow v u
  conserve : ∀ v, v ≠ s → v ≠ t →
    netInto flow (dkeys (buildResidual g)) v = 0
  support : ∀ u v, edgeVal flow u v ≠ 0 →
    u ∈ dkeys (buildResidual g) ∧ v ∈ dkeys (buildResidual g)
  edges : ∀ u v, hasEdge residual u v = hasEdge (buildResidual g) u v
  keys : dkeys residual = dkeys (buildResidual g)
  innerNodup : ∀ uadj ∈ residual, (dkeys uadj.2).Nodup
  nonneg : NonnegCap g → ∀ u v, 0 ≤ edgeVal residual u v

/-- What one augmentation walk does: flow gains `pf` on every path edge and
loses `pf` on every reversed path edge, the residual moves oppositely, and
the residual keeps its entry structure. -/
structure AugSpec (pf : Int) (ch : List (α × α))
    (res flow res' flow' : Graph α) : Prop where
  f_val : ∀ u v, edgeVal flow' u v
    = edgeVal flow u v + pf * countPair ch u v - pf * countPair ch v u
  r_val : ∀ u v, edgeVal res' u v
    = edgeVal res u v - pf * countPair ch u v + pf * countPair ch v u
  r_rowKeys : ∀ x, dkeys ((dget? res' x).getD [])
    = dkeys ((dget? res x).getD [])
  r_keys : dkeys res' = dkeys res
  r_innerNodup : (∀ uadj ∈ res, (dkeys uadj.2).Nodup) →
    ∀ uadj ∈ res', (dkeys uadj.2).Nodup

/-- The capacity of the cut whose source side is `{u ∈ L | R u}`: the total
capacity of edges from the source side to the complement. -/
def cutCapacity (g : Graph α) (L : List α) (R : α → Bool) : Int :=
  ((L.filter R).map fun u =>
    ((L.filter fun v => ! R v).map fun v => edgeVal g u v).sum).sum

/-- Total positive flow leaving `v` as recorded in the flow map. -/
def posOutFlow (f : Graph α) (v : α) : Int :=
  ((dget? f v).getD []).foldl (fun acc vc => acc + max vc.2 0) 0

/-- Sum of the values of an attribution map. -/
def dvaluesSum (d : Dict α Int) : Int := (d.map Prod.snd).sum

/-- Scenario A of the spec: `S→A(10), S→B(5), A→T(10), B→T(5)`. -/
def gScenarioA : Graph String :=
  [("S", [("A", 10), ("B", 5)]), ("A", [("T", 10)]), ("B", [("T", 5)])]

/-- A two-edge chain `S→A(5), A→T(5)`. -/
def gChain : Graph String := [("S", [("A", 5)]), ("A", [("T", 5)])]

/-- A graph whose sink `T` is a key but unreachable from `S`. -/
def gUnreach : Graph String := [("S", [("A", 10)]), ("T", [("A", 3)])]

/-- A single positive edge `S→T(1)`. -/
def gSingle : Graph String := [("S", [("T", 1)])]

/-- A graph with one negative-capacity edge `S→A(-1)` next to a working
route `S→B(1), B→T(1)`. -/
def gNegCap : Graph String :=
  [("S", [("A", -1), ("B", 1)]), ("B", [("T", 1)])]

/-- `S→A(2)`, then `A` splits one unit to shop `B` and one unit straight
to the super-sink `T`. -/
def gBranch : Graph String :=
  [("S", [("A", 2)]), ("A", [("B", 1), ("T", 1)]), ("B", [("T", 1)])]

/-! ### Dictionary lemmas -/

@[simp] theorem dkeys_nil : dkeys ([] : Dict α β) = [] := rfl

@[simp] theorem dkeys_cons (k : α) (v : β) (d : Dict α β) :
    dkeys ((k, v) :: d) = k :: dkeys d := rfl

theorem dget?_dset (d : Dict α β) (k q : α) (v : β) :
    dget? (dset d k v) q = if k = q then some v else dget? d q := by
  induction d with
  | nil => simp [dset, dget?]
  | cons kv rest ih =>
    obtain ⟨k', v'⟩ := kv
    by_cases hk : k' = k
    · subst hk
      by_cases hq : k' = q <;> simp [dset, dget?, hq]
    · by_cases hq : k' = q
      · subst hq
        have : ¬ k = k' := fun h => hk h.symm
        simp [dset, dget?, hk, this]
      · simp [dset, dget?, hk, hq, ih]

theorem dget?_eq_none_iff (d : Dict α β) (k : α) :
    dget? d k = none ↔ k ∉ dkeys d := by
  induction d with
  | nil => simp [dget?, dkeys]
  | cons kv rest ih =>
    obtain ⟨k', v'⟩ := kv
    by_cases hq : k' = k
    · subst hq
      simp [dget?, dkeys]
    · have hq2 : ¬ k = k' := fun h => hq h.symm
      simp [dget?, dkeys, hq, hq2, ih]

theorem dget?_isSome_iff (d : Dict α β) (k : α) :
    (dget? d k).isSome = true ↔ k ∈ dkeys d := by
  rw [Option.isSome_iff_ne_none, ne_eq, dget?_eq_none_iff, not_not]

theorem dmem_iff (d : Dict α β) (k : α) : dmem d k = true ↔ k ∈ dkeys d := by
  rw [dmem, dget?_isSome_iff]

theorem dkeys_dset (d : Dict α β) (k : α) (v : β) :
    dkeys (dset d k v) = if k ∈ dkeys d then dkeys d else dkeys d ++ [k] := by
  induction d with
  | nil => simp [dset, dkeys]
  | cons kv rest ih =>
    obtain ⟨k', v'⟩ := kv
    by_cases hk : k' = k
    · subst hk
      simp [dset, dkeys]
    · have hk2 : ¬ k = k' := fun h => hk h.symm
      by_cases hm : k ∈ dkeys rest <;>
        simp [dset, hk, hk2, hm, ih, List.mem_cons]

theorem dkeys_dset_of_mem {d : Dict α β} {k : α} (v : β) (h : k ∈ dkeys d) :
    dkeys (dset d k v) = dkeys d := by
  simp [dkeys_dset, h]

theorem mem_dkeys_dset (d : Dict α β) (k q : α) (v : β) :
    q ∈ dkeys (dset d k v) ↔ q ∈ dkeys d ∨ q = k := by
  rw [dkeys_dset]
  split
  · rename_i hm
    simp only [iff_def]
    exact ⟨fun h => Or.inl h, fun h => h.elim id (fun h => h ▸ hm)⟩
  · simp

theorem nodup_dkeys_dset {d : Dict α β} {k : α} (v : β)
    (h : (dkeys d).Nodup) : (dkeys (dset d k v)).Nodup := by
  rw [dkeys_dset]
  split
  · exact h
  · simpa [List.nodup_append] using ⟨h, ‹k ∉ dkeys d›⟩

theorem length_dset_of_mem {d : Dict α β} {k : α} (v : β) (h : k ∈ dkeys d) :
    (dset d k v).length = d.length := by
  induction d with
  | nil => simp [dkeys] at h
  | cons kv rest ih =>
    obtain ⟨k', v'⟩ := kv
    by_cases hk : k' = k
    · simp [dset, hk]
    · have hmem : k ∈ dkeys rest := by
        have h2 : k = k' ∨ k ∈ dkeys rest := by simpa [dkeys] using h
        exact h2.elim (fun h3 => (hk h3.symm).elim) id
      simp [dset, hk, ih hmem]

theorem dget?_mem {d : Dict α β} {k : α} {v : β} (h : dget? d k = some v) :
    (k, v) ∈ d := by
  induction d with
  | nil => simp [dget?] at h
  | cons kv rest ih =>
    obtain ⟨k', v'⟩ := kv
    by_cases hq : k' = k
    · subst hq
      simp [dget?] at h
      simp [h]
    · simp [dget?, hq] at h
      exact List.mem_cons_of_mem _ (ih h)

theorem mem_dget?_of_nodup {d : Dict α β} {k : α} {v : β}
    (hnd : (dkeys d).Nodup) (h : (k, v) ∈ d) : dget? d k = some v := by
  induction d with
  | nil => simp at h
  | cons kv rest ih =>
    obtain ⟨k', v'⟩ := kv
    simp at hnd
    rcases List.mem_cons.mp h with h1 | h1
    · rw [show k' = k from congrArg Prod.fst h1.symm] at hnd ⊢
      simp [dget?, (Prod.mk.injEq _ _ _ _).mp h1.symm]
    · have hk : ¬ k' = k := by
        intro he
        exact hnd.1 (he ▸ (List.mem_map_of_mem Prod.fst h1))
      simp [dget?, hk]
      exact ih hnd.2 h1

theorem edgeVal_dset (g : Graph α) (u : α) (inner : Dict α Int) (x y : α) :
    edgeVal (dset g u inner) x y
      = if u = x then (dget? inner y).getD 0 else edgeVal g x y := by
  unfold edgeVal
  rw [dget?_dset]
  by_cases h : u = x <;> simp [h]

theorem hasEdge_dset (g : Graph α) (u : α) (inner : Dict α Int) (x y : α) :
    hasEdge (dset g u inner) x y
      = if u = x then (dget? inner y).isSome else hasEdge g x y := by
  unfold hasEdge
  rw [dget?_dset]
  by_cases h : u = x <;> simp [h]

/-! ### Residual-construction lemmas -/

theorem dmem_eq_false_iff (d : Dict α β) (k : α) :
    dmem d k = false ↔ dget? d k = none := by
  unfold dmem
  cases h : dget? d k <;> simp

/-- What `addRev u res v` does to the outer dictionary, entry by entry:
the inner dictionary of `v` gains a zero entry for `u` unless one is already
there (created empty first when `v` was not yet a key), everything else is
untouched. -/
theorem dget?_addRev (u : α) (res : Graph α) (v x : α) :
    dget? (addRev u res v) x =
      if x = v then
        some (if hasEdge res v u then (dget? res v).getD []
              else dset ((dget? res v).getD []) u 0)
      else dget? res x := by
  unfold addRev
  have factA : ∀ q, dget? (if dmem res v then res else dset res v []) q
      = if q = v then some ((dget? res v).getD []) else dget? res q := by
    intro q
    by_cases hv : dmem res v
    · rcases h : dget? res v with _ | w
      · rw [(dmem_eq_false_iff res v).mpr h] at hv
        exact absurd hv (by simp)
      · by_cases hq : q = v
        · subst hq
          simp [hv, h]
        · simp [hv, hq]
    · have hres : dget? res v = none := (dmem_eq_false_iff res v).mp
        (Bool.not_eq_true _ ▸ hv)
      by_cases hq : q = v
      · subst hq
        simp [hv, dget?_dset, hres]
      · have hq2 : ¬ v = q := fun h => hq h.symm
        simp [hv, dget?_dset, hq, hq2, hres]
  have hinner : (dget? (if dmem res v then res else dset res v []) v).getD []
      = (dget? res v).getD [] := by
    rw [factA]
    simp
  simp only
  rw [hinner]
  have hmem : dmem ((dget? res v).getD []) u = hasEdge res v u := rfl
  rw [hmem]
  by_cases hu : hasEdge res v u
  · rw [if_pos hu, factA]
    by_cases hx : x = v
    · simp [hx, hu]
    · simp [hx]
  · rw [if_neg hu, dget?_dset, factA]
    by_cases hx : x = v
    · subst hx
      simp [hu]
    · have hx2 : ¬ v = x := fun h => hx h.symm
      simp [hx, hx2]

theorem edgeVal_addRev (u : α) (res : Graph α) (v x y : α) :
    edgeVal (addRev u res v) x y = edgeVal res x y := by
  unfold edgeVal
  rw [dget?_addRev]
  by_cases hx : x = v
  · subst hx
    rw [if_pos rfl]
    by_cases hu : hasEdge res x u
    · simp [hu]
    · rw [if_neg hu]
      simp only [Option.getD_some]
      rw [dget?_dset]
      by_cases hy : u = y
      · subst hy
        have hnone : dget? ((dget? res x).getD []) u = none := by
          rcases h : dget? ((dget? res x).getD []) u with _ | w
          · rfl
          · exact absurd (by unfold hasEdge; simp [h]) hu
        simp [hnone]
      · simp [hy]
  · rw [if_neg hx]

theorem hasEdge_addRev (u : α) (res : Graph α) (v x y : α) :
    hasEdge (addRev u res v) x y
      = (hasEdge res x y || (decide (x = v) && decide (y = u))) := by
  unfold hasEdge
  rw [dget?_addRev]
  by_cases hx : x = v
  · subst hx
    rw [if_pos rfl]
    by_cases hu : hasEdge res x u
    · rw [if_pos hu]
      simp only [Option.getD_some]
      by_cases hy : y = u
      · subst hy
        unfold hasEdge at hu
        simp [hu]
      · simp [hy]
    · rw [if_neg hu]
      simp only [Option.getD_some]
      rw [dget?_dset]
      by_cases hy : u = y
      · subst hy
        simp
      · have hy2 : ¬ y = u := fun h => hy h.symm
        simp [hy, hy2]
  · rw [if_neg hx]
    simp [hx]

theorem mem_dkeys_addRev (u : α) (res : Graph α) (v q : α) :
    q ∈ dkeys (addRev u res v) ↔ q ∈ dkeys res ∨ q = v := by
  rw [← dget?_isSome_iff, ← dget?_isSome_iff, dget?_addRev]
  by_cases hq : q = v
  · simp [hq]
  · simp [hq]

theorem dkeys_addRev (u : α) (res : Graph α) (v : α) :
    dkeys (addRev u res v)
      = if v ∈ dkeys res then dkeys res else dkeys res ++ [v] := by
  unfold addRev
  have h1 : dkeys (if dmem res v then res else dset res v [])
      = if v ∈ dkeys res then dkeys res else dkeys res ++ [v] := by
    by_cases hv : dmem res v
    · rw [if_pos hv, if_pos ((dmem_iff res v).mp hv)]
    · have hv2 : v ∉ dkeys res := fun h => hv ((dmem_iff res v).mpr h)
      rw [if_neg hv, if_neg hv2, dkeys_dset, if_neg hv2]
  have hv1 : v ∈ dkeys (if dmem res v then res else dset res v []) := by
    rw [h1]
    by_cases hv : v ∈ dkeys res <;> simp [hv]
  by_cases hu : dmem ((dget? (if dmem res v then res else dset res v []) v).getD []) u
  · rw [if_pos hu]
    exact h1
  · rw [if_neg (by simpa using hu), dkeys_dset_of_mem _ hv1]
    exact h1

theorem nodup_dkeys_addRev (u : α) {res : Graph α} (v : α)
    (h : (dkeys res).Nodup) : (dkeys (addRev u res v)).Nodup := by
  rw [dkeys_addRev]
  by_cases hv : v ∈ dkeys res
  · simpa [hv] using h
  · rw [if_neg hv]
    simpa [List.nodup_append] using ⟨h, hv⟩


/-- A generic invariant-preservation principle for `List.foldl`. -/
theorem foldl_invariant {γ δ : Type} {P : δ → Prop} (f : δ → γ → δ)
    (l : List γ) (init : δ) (h0 : P init)
    (hstep : ∀ acc x, x ∈ l → P acc → P (f acc x)) : P (l.foldl f init) := by
  induction l generalizing init with
  | nil => exact h0
  | cons x xs ih =>
    exact ih (f init x) (hstep init x (List.mem_cons_self x xs)
      h0) (fun acc y hy => hstep acc y (List.mem_cons_of_mem x hy))

/-- Establishing a `List.foldl` postcondition by one designated element of the
list: processing `x` establishes `P`, and every later step preserves it. -/
theorem foldl_process {γ δ : Type} {P : δ → Prop} (f : δ → γ → δ)
    (l : List γ) (x : γ) (hx : x ∈ l) (init : δ)
    (hproc : ∀ acc, P (f acc x))
    (hmono : ∀ acc y, y ∈ l → P acc → P (f acc y)) : P (l.foldl f init) := by
  induction l generalizing init with
  | nil => cases hx
  | cons hd tl ih =>
    rcases List.mem_cons.mp hx with h1 | hx2
    · subst h1
      exact foldl_invariant f tl (f init x) (hproc init)
        (fun acc y hy => hmono acc y (List.mem_cons_of_mem x hy))
    · exact ih hx2 (f init hd)
        (fun acc y hy => hmono acc y (List.mem_cons_of_mem hd hy))

theorem mem_dset {d : Dict α β} {k : α} {v : β} {p : α × β}
    (h : p ∈ dset d k v) : p ∈ d ∨ p = (k, v) := by
  induction d with
  | nil => simpa [dset] using h
  | cons kv rest ih =>
    obtain ⟨k', v'⟩ := kv
    by_cases hk : k' = k
    · rcases List.mem_cons.mp (by simpa [dset, hk] using h) with h1 | h1
      · exact Or.inr h1
      · exact Or.inl (List.mem_cons_of_mem _ h1)
    · rcases List.mem_cons.mp (by simpa [dset, hk] using h) with h1 | h1
      · exact Or.inl (h1 ▸ List.mem_cons_self _ _)
      · rcases ih h1 with h2 | h2
        · exact Or.inl (List.mem_cons_of_mem _ h2)
        · exact Or.inr h2

/-- A target of an edge is a node. -/
theorem isNode_target {g : Graph α} {u v : α} {adj : Dict α Int}
    (hadj : dget? g u = some adj) (hv : v ∈ dkeys adj) : isNode g v = true := by
  unfold isNode
  refine Bool.or_eq_true_iff.mpr (Or.inr ?_)
  rw [List.any_eq_true]
  exact ⟨(u, adj), dget?_mem hadj, (dmem_iff _ _).mpr hv⟩

/-- A key of the graph is a node. -/
theorem isNode_key {g : Graph α} {u : α} (hu : u ∈ dkeys g) :
    isNode g u = true := by
  unfold isNode
  exact Bool.or_eq_true_iff.mpr (Or.inl ((dmem_iff _ _).mpr hu))

/-- Building the residual graph does not change any edge value: only
zero-valued reverse entries are added. -/
theorem edgeVal_buildResidual (g : Graph α) (x y : α) :
    edgeVal (buildResidual g) x y = edgeVal g x y := by
  unfold buildResidual
  refine foldl_invariant (P := fun res => edgeVal res x y = edgeVal g x y)
    _ _ _ rfl ?_
  intro acc u hu hacc
  refine foldl_invariant (P := fun res => edgeVal res x y = edgeVal g x y)
    _ _ _ hacc ?_
  intro acc2 vc hvc hacc2
  rw [edgeVal_addRev]
  exact hacc2

/-- The keys of the residual graph are exactly the nodes of the graph. -/
theorem mem_dkeys_buildResidual {g : Graph α} (hnd : (dkeys g).Nodup)
    (x : α) : x ∈ dkeys (buildResidual g) ↔ isNode g x = true := by
  constructor
  · intro hmem
    refine foldl_invariant
      (P := fun res => x ∈ dkeys res → isNode g x = true) _ _ _
      (fun h => isNode_key h) ?_ hmem
    intro acc u hu hacc hx
    revert hx
    refine foldl_invariant
      (P := fun res => x ∈ dkeys res → isNode g x = true) _ _ _ hacc ?_
    intro acc2 vc hvc hacc2 hx
    rcases (mem_dkeys_addRev u acc2 vc.1 x).mp hx with h1 | h1
    · exact hacc2 h1
    · rcases h : dget? g u with _ | adj
      · rw [h] at hvc
        simp at hvc
      · rw [h] at hvc
        exact h1 ▸ isNode_target h (List.mem_map_of_mem Prod.fst hvc)
  · intro hnode
    unfold isNode at hnode
    rcases Bool.or_eq_true_iff.mp hnode with h | h
    · -- a key of `g` stays a key throughout
      refine foldl_invariant (P := fun res => x ∈ dkeys res) _ _ _
        ((dmem_iff _ _).mp h) ?_
      intro acc u hu hacc
      refine foldl_invariant (P := fun res => x ∈ dkeys res) _ _ _ hacc ?_
      intro acc2 vc hvc hacc2
      exact (mem_dkeys_addRev u acc2 vc.1 x).mpr (Or.inl hacc2)
    · -- a target of an edge is inserted when that edge is processed
      rw [List.any_eq_true] at h
      obtain ⟨⟨u, adj⟩, huadj, hx⟩ := h
      have hget : dget? g u = some adj := mem_dget?_of_nodup hnd huadj
      have hukey : u ∈ dkeys g := List.mem_map_of_mem Prod.fst huadj
      have hxadj : x ∈ dkeys adj := (dmem_iff _ _).mp hx
      obtain ⟨vc, hvc, hvcx⟩ := List.mem_map.mp hxadj
      refine foldl_process (P := fun res => x ∈ dkeys res) _ _ u hukey _
        ?_ ?_
      · intro acc
        rw [hget]
        refine foldl_process (P := fun res => x ∈ dkeys res) _ _ vc hvc _
          ?_ ?_
        · intro acc2
          exact (mem_dkeys_addRev u acc2 vc.1 x).mpr (Or.inr hvcx.symm)
        · intro acc2 wc hwc hacc2
          exact (mem_dkeys_addRev u acc2 wc.1 x).mpr (Or.inl hacc2)
      · intro acc y hy hacc
        refine foldl_invariant (P := fun res => x ∈ dkeys res) _ _ _ hacc ?_
        intro acc2 wc hwc hacc2
        exact (mem_dkeys_addRev y acc2 wc.1 x).mpr (Or.inl hacc2)

/-- The residual graph has an entry for `(x, y)` exactly when the capacity
graph has an edge `(x, y)` or an edge `(y, x)`. -/
theorem hasEdge_buildResidual {g : Graph α} (hnd : (dkeys g).Nodup)
    (x y : α) :
    hasEdge (buildResidual g) x y
      = (hasEdge g x y || hasEdge g y x) := by
  rcases hb : hasEdge (buildResidual g) x y with _ | _
  · -- absent in the residual: absent in both directions of the graph
    symm
    rw [Bool.or_eq_false_iff]
    constructor
    · -- `hasEdge g x y` would have been copied over
      rcases hxy : hasEdge g x y with _ | _
      · rfl
      · exfalso
        have : hasEdge (buildResidual g) x y = true := by
          refine foldl_invariant
            (P := fun res => hasEdge res x y = true) _ _ _ hxy ?_
          intro acc u hu hacc
          refine foldl_invariant
            (P := fun res => hasEdge res x y = true) _ _ _ hacc ?_
          intro acc2 vc hvc hacc2
          rw [hasEdge_addRev, hacc2, Bool.true_or]
        rw [this] at hb
        exact Bool.noConfusion hb
    · -- `hasEdge g y x` would have forced the reverse entry
      rcases hyx : hasEdge g y x with _ | _
      · rfl
      · exfalso
        have hykey : y ∈ dkeys g := by
          unfold hasEdge at hyx
          rcases h : dget? g y with _ | adj
          · rw [h] at hyx
            simp [dget?] at hyx
          · exact (dget?_isSome_iff _ _).mp (by rw [h]; rfl)
        rcases h : dget? g y with _ | adj
        · unfold hasEdge at hyx
          rw [h] at hyx
          simp [dget?] at hyx
        · have hxadj : x ∈ dkeys adj := by
            unfold hasEdge at hyx
            rw [h] at hyx
            exact (dget?_isSome_iff _ _).mp (by simpa using hyx)
          obtain ⟨vc, hvc, hvcx⟩ := List.mem_map.mp hxadj
          have : hasEdge (buildResidual g) x y = true := by
            refine foldl_process
              (P := fun res => hasEdge res x y = true) _ _ y hykey _ ?_ ?_
            · intro acc
              rw [h]
              refine foldl_process
                (P := fun res => hasEdge res x y = true) _ _ vc hvc _ ?_ ?_
              · intro acc2
                rw [hasEdge_addRev, hvcx]
                simp
              · intro acc2 wc hwc hacc2
                rw [hasEdge_addRev, hacc2, Bool.true_or]
            · intro acc z hz hacc
              refine foldl_invariant
                (P := fun res => hasEdge res x y = true) _ _ _ hacc ?_
              intro acc2 wc hwc hacc2
              rw [hasEdge_addRev, hacc2, Bool.true_or]
          rw [this] at hb
          exact Bool.noConfusion hb
  · -- present in the residual: present in the graph in some direction
    symm
    rw [Bool.or_eq_true_iff]
    revert hb
    unfold buildResidual
    refine foldl_invariant
      (P := fun res => hasEdge res x y = true →
        hasEdge g x y = true ∨ hasEdge g y x = true)
      _ _ _ (fun h => Or.inl h) ?_
    intro acc u hu hacc
    dsimp only
    rcases h : dget? g u with _ | adj
    · simpa using hacc
    · simp only [Option.getD_some]
      refine foldl_invariant
        (P := fun res => hasEdge res x y = true →
          hasEdge g x y = true ∨ hasEdge g y x = true) _ _ _ hacc ?_
      intro acc2 vc hvc hacc2 hxy
      rw [hasEdge_addRev] at hxy
      rcases Bool.or_eq_true_iff.mp hxy with h1 | h1
      · exact hacc2 h1
      · have hx : x = vc.1 := of_decide_eq_true (Bool.and_eq_true_iff.mp h1).1
        have hy : y = u := of_decide_eq_true (Bool.and_eq_true_iff.mp h1).2
        refine Or.inr ?_
        unfold hasEdge
        rw [hy, h]
        simpa [dget?_isSome_iff] using
          (hx ▸ List.mem_map_of_mem Prod.fst hvc)

/-- Well-formedness is preserved by residual construction. -/
theorem dictWF_buildResidual {g : Graph α} (hwf : DictWF g) :
    DictWF (buildResidual g) := by
  unfold buildResidual
  refine foldl_invariant (P := DictWF) _ _ _ hwf ?_
  intro acc u hu hacc
  refine foldl_invariant (P := DictWF) _ _ _ hacc ?_
  intro acc2 vc hvc hacc2
  constructor
  · exact nodup_dkeys_addRev u vc.1 hacc2.1
  · intro uadj hmem
    unfold addRev at hmem
    by_cases hv : dmem acc2 vc.1
    · simp only [hv, if_true] at hmem
      by_cases hu2 : dmem ((dget? acc2 vc.1).getD []) u
      · exact hacc2.2 uadj (by simpa [hu2] using hmem)
      · rcases mem_dset (by simpa [hu2] using hmem) with h1 | h1
        · exact hacc2.2 uadj h1
        · subst h1
          rcases h : dget? acc2 vc.1 with _ | w
          · simp [h]
            exact nodup_dkeys_dset 0 (by simp)
          · simp only [h, Option.getD_some]
            exact nodup_dkeys_dset 0 (hacc2.2 (vc.1, w) (dget?_mem h))
    · have hres : dget? acc2 vc.1 = none := (dmem_eq_false_iff _ _).mp
        (Bool.not_eq_true _ ▸ hv)
      simp only [hv, if_false, hres] at hmem
      by_cases hu2 : dmem ((dget? (dset acc2 vc.1 []) vc.1).getD []) u
      · rcases mem_dset (by simpa [hu2] using hmem) with h1 | h1
        · exact hacc2.2 uadj h1
        · subst h1
          simp
      · rcases mem_dset (by simpa [hu2] using hmem) with h1 | h1
        · rcases mem_dset h1 with h2 | h2
          · exact hacc2.2 uadj h2
          · subst h2
            simp
        · subst h1
          rw [dget?_dset, if_pos rfl] at hu2 ⊢
          simp only [Option.getD_some]
          exact nodup_dkeys_dset 0 (by simp)

/-! ### BFS failure on missing endpoints -/

theorem dget?_map_none (l : List α) (q : α) :
    dget? (l.map fun n => (n, (none : Option α))) q
      = if q ∈ l then some none else none := by
  induction l with
  | nil => simp [dget?]
  | cons x xs ih =>
    by_cases hx : x = q
    · simp [dget?, hx]
    · have hx2 : ¬ q = x := fun h => hx h.symm
      simp [dget?, hx, hx2, ih]

/-- One step of the BFS loop on a non-empty queue with the sink missing
from the `parent` dictionary: `parent[sink]` raises `KeyError`. -/
theorem bfsLoop_keyError_sink {res : Graph α} {t : α}
    {parent : Dict α (Option α)} (fuel : Nat) (current : α) (rest : List α)
    (hp : dget? parent t = none) :
    bfsLoop res t (fuel + 1) (current :: rest) parent = .keyError := by
  rw [bfsLoop, hp]

/-- One step of the BFS loop on a non-empty queue whose head is not a key
of the residual graph (and the sink still undiscovered): the
`residual[current]` lookup raises `KeyError`. -/
theorem bfsLoop_keyError_current {res : Graph α} {t current : α}
    {parent : Dict α (Option α)} (fuel : Nat) (rest : List α)
    (hp : dget? parent t = some none) (hres : dget? res current = none) :
    bfsLoop res t (fuel + 1) (current :: rest) parent = .keyError := by
  rw [bfsLoop, hp, hres]

/-- If the sink is not a key of the residual graph (and differs from the
source), the very first `parent[sink]` test of the BFS loop raises
`KeyError`. -/
theorem bfs_keyError_of_sink_missing {res : Graph α} {s t : α}
    (hst : s ≠ t) (ht : t ∉ dkeys res) : bfs res s t = .keyError := by
  have hp : dget? (dset ((dkeys res).map fun n => (n, (none : Option α)))
      s (some s)) t = none := by
    have hst2 : ¬ s = t := hst
    rw [dget?_dset, if_neg hst2, dget?_map_none, if_neg ht]
  exact bfsLoop_keyError_sink _ s [] hp

/-- If the source is not a key of the residual graph while the sink is,
the `residual[current]` lookup of the popped source raises `KeyError`. -/
theorem bfs_keyError_of_source_missing {res : Graph α} {s t : α}
    (hst : s ≠ t) (hs : s ∉ dkeys res) (ht : t ∈ dkeys res) :
    bfs res s t = .keyError := by
  have hp : dget? (dset ((dkeys res).map fun n => (n, (none : Option α)))
      s (some s)) t = some none := by
    have hst2 : ¬ s = t := hst
    rw [dget?_dset, if_neg hst2, dget?_map_none, if_pos ht]
  have hres : dget? res s = none := (dget?_eq_none_iff res s).mpr hs
  exact bfsLoop_keyError_current _ [] hp hres

/-- A `KeyError` in the BFS phase aborts the whole augmenting loop. -/
theorem ekLoop_keyError_of_bfs {residual : Graph α} {s t : α}
    (hbfs : bfs residual s t = .keyError) (n : Nat) (f : Graph α)
    (mf : Option Int) : ekLoop s t (n + 1) residual f mf = .keyError := by
  rw [ekLoop, hbfs]

theorem dictWF_gSingle : DictWF gSingle := by
  constructor
  · decide
  · intro uadj h
    rcases List.mem_cons.mp h with h | h
    · rw [h]
      decide
    · simp at h

/-! ### Claim theorems (first batch) -/

/-- C2: on the reference logistics network, `edmonds_karp` returns a
maximum-flow value of `115`, which equals the sum of the two capacities
leaving the super-source `S` (60 + 55): the downstream capacities impose no
further bottleneck. -/
theorem C2_logistics_max_flow :
    maxFlowOf (edmonds_karp build_logistics_graph "S" "T") = some (some 115)
    ∧ edgeVal build_logistics_graph "S" "Terminal 1"
        + edgeVal build_logistics_graph "S" "Terminal 2" = 115 := by
  constructor
  · rfl
  · rfl

/-- C4 counterexample: on the chain `S→A(5), A→T(5)` the returned flow map
has `flow(A,S) = -5` while `capacity(A,S) = 0`, so `|flow(u,v)| ≤
capacity(u,v)` fails for the ordered pair `(A, S)` (an absent edge has
capacity `0`). -/
theorem C4_counterexample :
    edgeVal (flowOf (edmonds_karp gChain "S" "T")) "A" "S" = -5
    ∧ edgeVal gChain "A" "S" = 0
    ∧ ¬ |edgeVal (flowOf (edmonds_karp gChain "S" "T")) "A" "S"|
        ≤ edgeVal gChain "A" "S" := by
  refine ⟨by rfl, by rfl, by decide⟩

/-- C6 counterexample: with `source = sink = "X"` absent from the node set
of `S→T(1)`, `edmonds_karp` does not fail: `parent["X"] = "X"` makes the
BFS exit at once with a non-`None` parent for the sink, the recovered path
is empty, and the loop repeats forever with `max_flow = inf` — modelled as
fuel exhaustion, never a `KeyError`. -/
theorem C6_counterexample :
    isNode gSingle "X" = false
    ∧ edmonds_karp gSingle "X" "X" = EKRes.fuelOut
    ∧ edmonds_karp gSingle "X" "X" ≠ EKRes.keyError := by
  refine ⟨by rfl, by rfl, by decide⟩

/-- C6 amended: for distinct source and sink, if either is absent from the
node set then `edmonds_karp` raises `KeyError` (the spec's `InvalidGraph`)
in the first BFS phase, before any flow is computed. -/
theorem C6_amended_missing_endpoint_keyError (g : Graph α) (s t : α)
    (hwf : DictWF g) (hst : s ≠ t)
    (h : isNode g s = false ∨ isNode g t = false) :
    edmonds_karp g s t = EKRes.keyError := by
  have hbfs : bfs (buildResidual g) s t = .keyError := by
    rcases h with h | h
    · by_cases ht : isNode g t = true
      · refine bfs_keyError_of_source_missing hst ?_ ?_
        · intro hmem
          rw [(mem_dkeys_buildResidual hwf.1 s).mp hmem] at h
          exact Bool.noConfusion h
        · exact (mem_dkeys_buildResidual hwf.1 t).mpr ht
      · refine bfs_keyError_of_sink_missing hst ?_
        intro hmem
        exact ht ((mem_dkeys_buildResidual hwf.1 t).mp hmem)
    · refine bfs_keyError_of_sink_missing hst ?_
      intro hmem
      rw [(mem_dkeys_buildResidual hwf.1 t).mp hmem] at h
      exact Bool.noConfusion h
  exact ekLoop_keyError_of_bfs hbfs ((posOutCap g s).toNat + 1) [] (some 0)

/-- Witness for the amended C6 at a concrete input: `"X"` is not a node of
`S→T(1)` and the call fails with `KeyError`. -/
theorem C6_amended_witness :
    DictWF gSingle ∧ ("X" : String) ≠ "T"
    ∧ isNode gSingle "X" = false
    ∧ edmonds_karp gSingle "X" "T" = EKRes.keyError :=
  ⟨dictWF_gSingle, by decide, by decide,
    C6_amended_missing_endpoint_keyError gSingle "X" "T" dictWF_gSingle
      (by decide) (Or.inl (by decide))⟩

/-- C8 counterexample: the graph `gNegCap` has the negative-capacity edge
`S→A(-1)`, yet nothing is rejected: `edmonds_karp` runs to completion and
returns max flow `1` with the full flow map; the negative edge simply
carries no flow. -/
theorem C8_counterexample :
    edgeVal gNegCap "S" "A" < 0
    ∧ edmonds_karp gNegCap "S" "T"
        = EKRes.ok (some 1)
            [("B", [("T", 1), ("S", -1)]), ("T", [("B", -1)]),
             ("S", [("B", 1)])]
    ∧ edgeVal (flowOf (edmonds_karp gNegCap "S" "T")) "S" "A" = 0 := by
  refine ⟨by decide, by rfl, by rfl⟩

/-- C9 counterexample: on `gBranch` the flow out of terminal `A` is
`flow(A,B) = 1` and `flow(A,T) = 1` (total positive outflow `2`), the
positive-flow subgraph restricted to the interior nodes `{A, B}` is the
single edge `A→B` (acyclic), yet the decomposition from `A` attributes only
`1` (the unit reaching shop `B`); the unit flowing straight to the exterior
sink `T` is never attributed. -/
theorem C9_counterexample :
    buildSubFlow (["A"] ++ [] ++ ["B"])
        (flowOf (edmonds_karp gBranch "S" "T")) = [("A", [("B", 1)])]
    ∧ (decompose_terminal_flows "A"
        (flowOf (edmonds_karp gBranch "S" "T")) ["A"] [] ["B"]).1
        = Res.ok [("B", 1)]
    ∧ posOutFlow (flowOf (edmonds_karp gBranch "S" "T")) "A" = 2
    ∧ dvaluesSum [("B", 1)] = 1 := by
  refine ⟨by rfl, by rfl, by rfl, by rfl⟩

/-- C10: `decompose_terminal_flows` leaves the caller's flow map unchanged —
all bottleneck subtractions are applied to the locally built `sub_flow`
copy — so successive decompositions for different terminals all start from
the original flow. -/
theorem C10_decompose_preserves_flow (terminal : α) (flow : Graph α)
    (tl wl sl : List α) :
    (decompose_terminal_flows terminal flow tl wl sl).2 = flow
    ∧ ∀ terminal2 : α,
        decompose_terminal_flows terminal2
            (decompose_terminal_flows terminal flow tl wl sl).2 tl wl sl
          = decompose_terminal_flows terminal2 flow tl wl sl :=
  ⟨rfl, fun _ => rfl⟩

/-! ### Parent-path lemmas -/

theorem parentPath_nodup {parent : Dict α (Option α)} {s x : α}
    {ch : List (α × α)} (h : ParentPath parent s x ch) :
    (pathNodes ch x).Nodup := by
  induction h with
  | nil => simp [pathNodes]
  | @cons x p ch hxs hpx hnot hpp ih =>
    have hrw : pathNodes ((p, x) :: ch) x = x :: pathNodes ch p := rfl
    rw [hrw, List.nodup_cons]
    exact ⟨hnot, ih⟩

theorem parentPath_entry {parent : Dict α (Option α)} {s x : α}
    {ch : List (α × α)} (h : ParentPath parent s x ch)
    (hsrc : dget? parent s = some (some s)) :
    ∀ n ∈ pathNodes ch x, ∃ q, dget? parent n = some (some q) := by
  induction h with
  | nil =>
    intro n hn
    rw [show pathNodes [] s = [s] from rfl] at hn
    simp at hn
    exact hn ▸ ⟨s, hsrc⟩
  | @cons x p ch hxs hpx hnot hpp ih =>
    intro n hn
    rw [show pathNodes ((p, x) :: ch) x = x :: pathNodes ch p from rfl] at hn
    rcases List.mem_cons.mp hn with rfl | hn
    · exact ⟨p, hpx⟩
    · exact ih n hn

theorem parentPath_edges {parent : Dict α (Option α)} {s x : α}
    {ch : List (α × α)} (h : ParentPath parent s x ch) :
    ∀ e ∈ ch, dget? parent e.2 = some (some e.1) ∧ e.2 ≠ s := by
  induction h with
  | nil => intro e he; cases he
  | @cons x p ch hxs hpx hnot hpp ih =>
    intro e he
    rcases List.mem_cons.mp he with rfl | he
    · exact ⟨hpx, hxs⟩
    · exact ih e he

theorem parentPath_mono {parent parent' : Dict α (Option α)} {s x : α}
    {ch : List (α × α)}
    (hkeep : ∀ a b, dget? parent a = some (some b) →
      dget? parent' a = some (some b))
    (h : ParentPath parent s x ch) : ParentPath parent' s x ch := by
  induction h with
  | nil => exact ParentPath.nil
  | @cons x p ch hxs hpx hnot hpp ih =>
    exact ParentPath.cons hxs (hkeep x p hpx) hnot ih

theorem parentPath_snd {parent : Dict α (Option α)} {s x : α}
    {ch : List (α × α)} (h : ParentPath parent s x ch) :
    ch.map Prod.snd = (pathNodes ch x).dropLast := by
  induction h with
  | nil => rfl
  | @cons x p ch hxs hpx hnot hpp ih =>
    have hrw : pathNodes ((p, x) :: ch) x = x :: pathNodes ch p := rfl
    rw [hrw, show pathNodes ch p = p :: ch.map Prod.fst from rfl,
      List.dropLast_cons₂]
    rw [show ((p, x) :: ch).map Prod.snd = x :: ch.map Prod.snd from rfl, ih]
    rfl

theorem parentPath_s_mem {parent : Dict α (Option α)} {s x : α}
    {ch : List (α × α)} (h : ParentPath parent s x ch) :
    s ∈ pathNodes ch x := by
  induction h with
  | nil => simp [pathNodes]
  | @cons x p ch hxs hpx hnot hpp ih =>
    rw [show pathNodes ((p, x) :: ch) x = x :: pathNodes ch p from rfl]
    exact List.mem_cons_of_mem x ih

theorem parentPath_s_not_dropLast {parent : Dict α (Option α)} {s x : α}
    {ch : List (α × α)} (h : ParentPath parent s x ch) :
    s ∉ (pathNodes ch x).dropLast := by
  induction h with
  | nil => simp [pathNodes]
  | @cons x p ch hxs hpx hnot hpp ih =>
    rw [show pathNodes ((p, x) :: ch) x = x :: pathNodes ch p from rfl,
      show pathNodes ch p = p :: ch.map Prod.fst from rfl,
      List.dropLast_cons₂]
    intro hmem
    rcases List.mem_cons.mp hmem with h1 | h1
    · exact hxs h1.symm
    · exact ih (by
        rw [show pathNodes ch p = p :: ch.map Prod.fst from rfl]
        exact h1)

theorem parentPath_walkChain {parent : Dict α (Option α)} {s x : α}
    {ch : List (α × α)} (h : ParentPath parent s x ch) :
    ∀ fuel, ch.length < fuel → walkChain parent s fuel x = .ok ch := by
  induction h with
  | nil =>
    intro fuel hfuel
    cases fuel with
    | zero => exact absurd hfuel (by simp)
    | succ f => rw [walkChain, if_pos rfl]
  | @cons x p ch hxs hpx hnot hpp ih =>
    intro fuel hfuel
    cases fuel with
    | zero => exact absurd hfuel (by simp)
    | succ f =>
      rw [walkChain, if_neg hxs, hpx]
      dsimp only
      rw [ih f (Nat.lt_of_succ_lt_succ (by simpa using hfuel))]

theorem parentPath_length {parent : Dict α (Option α)} {s x : α}
    {ch : List (α × α)} (h : ParentPath parent s x ch)
    (hsrc : dget? parent s = some (some s)) :
    ch.length < parent.length + 1 := by
  have hsub : pathNodes ch x ⊆ dkeys parent := by
    intro n hn
    obtain ⟨q, hq⟩ := parentPath_entry h hsrc n hn
    exact (dget?_isSome_iff parent n).mp (by rw [hq]; rfl)
  have hlen : (pathNodes ch x).length ≤ (dkeys parent).length :=
    (List.subperm_of_subset (parentPath_nodup h) hsub).length_le
  have : (pathNodes ch x).length = ch.length + 1 := by
    simp [pathNodes]
  rw [this] at hlen
  have hkeys : (dkeys parent).length = parent.length := List.length_map _ _
  omega

theorem parentPath_posReach {res : Graph α} {parent : Dict α (Option α)}
    {s x : α} {ch : List (α × α)} (h : ParentPath parent s x ch)
    (hedge : ∀ a b, b ≠ s → dget? parent b = some (some a) →
      0 < edgeVal res a b) : PosReach res s x := by
  induction h with
  | nil => exact Relation.ReflTransGen.refl
  | @cons x p ch hxs hpx hnot hpp ih =>
    exact Relation.ReflTransGen.tail ih (hedge p x hxs hpx)

theorem countP_dset {d : Dict α β} {k : α} {w : β} (v : β)
    (pr : α × β → Bool) (h : dget? d k = some w) :
    (dset d k v).countP pr + (if pr (k, w) then 1 else 0)
      = d.countP pr + (if pr (k, v) then 1 else 0) := by
  induction d with
  | nil => simp [dget?] at h
  | cons kv rest ih =>
    obtain ⟨k', v'⟩ := kv
    by_cases hk : k' = k
    · subst hk
      rw [show dget? ((k', v') :: rest) k' = some v' by simp [dget?]] at h
      obtain rfl := Option.some.inj h
      rw [show dset ((k', v') :: rest) k' v = (k', v) :: rest by
        simp [dset]]
      rw [List.countP_cons, List.countP_cons]
      omega
    · rw [show dget? ((k', v') :: rest) k = dget? rest k by
        simp [dget?, hk]] at h
      rw [show dset ((k', v') :: rest) k v = (k', v') :: dset rest k v by
        simp [dset, hk]]
      rw [List.countP_cons, List.countP_cons]
      have := ih h
      omega

/-! ### BFS scan specification -/

theorem bfsScan_spec (sink current : α) :
    ∀ (adj : List (α × Int)) (parent : Dict α (Option α)) (queue : List α),
    (∀ vc ∈ adj, 0 < vc.2 → (dget? parent vc.1).isSome = true) →
    ∃ parent' queue',
      bfsScan sink current adj parent queue = some (parent', queue')
      ∧ ScanSpec sink current adj parent queue parent' queue' := by
  intro adj
  induction adj with
  | nil =>
    intro parent queue hkeys
    refine ⟨parent, queue, rfl, ?_⟩
    refine ⟨fun x y h => h, rfl, fun x y h => Or.inl h,
      fun x h => Or.inl h, fun x h => h, ?_, Or.inl ?_, rfl⟩
    · intro x y h1 h2
      rw [h1] at h2
      exact absurd (Option.some.inj h2) (by simp)
    · intro vc hvc
      cases hvc
  | cons vc rest ih =>
    obtain ⟨v, c⟩ := vc
    intro parent queue hkeys
    by_cases hc : c > 0
    · rcases hv : dget? parent v with _ | w
      · exact absurd (hkeys (v, c) (List.mem_cons_self _ _) hc)
          (by rw [hv]; simp)
      · rcases w with _ | u
        · -- v undiscovered: discover it
          have hvkey : v ∈ dkeys parent :=
            (dget?_isSome_iff parent v).mp (by rw [hv]; rfl)
          have f1 : ∀ x, dget? (dset parent v (some current)) x
              = if v = x then some (some current) else dget? parent x :=
            fun x => dget?_dset parent v x (some current)
          have keep2 : ∀ x y, dget? parent x = some (some y) →
              dget? (dset parent v (some current)) x = some (some y) := by
            intro x y hx
            rw [f1]
            by_cases hvx : v = x
            · rw [← hvx] at hx
              rw [hv] at hx
              exact absurd (Option.some.inj hx) (by simp)
            · rw [if_neg hvx]
              exact hx
          have keys2 : dkeys (dset parent v (some current)) = dkeys parent :=
            dkeys_dset_of_mem _ hvkey
          have meas2 : (dset parent v (some current)).countP
                (fun e => e.2.isNone) + 1
              = parent.countP (fun e => e.2.isNone) := by
            have := countP_dset (d := parent) (k := v) (w := none)
              (some current) (fun e => e.2.isNone) hv
            simpa using this
          have hstep : bfsScan sink current ((v, c) :: rest) parent queue
              = if v = sink
                then some (dset parent v (some current), queue ++ [v])
                else bfsScan sink current rest
                  (dset parent v (some current)) (queue ++ [v]) := by
            rw [bfsScan, if_pos hc, hv]
          by_cases hsink : v = sink
          · refine ⟨dset parent v (some current), queue ++ [v],
              by rw [hstep, if_pos hsink], ?_⟩
            refine ⟨keep2, keys2, ?_, ?_, ?_, ?_, ?_, ?_⟩
            · intro x y hx
              rw [f1] at hx
              by_cases hvx : v = x
              · rw [if_pos hvx] at hx
                obtain rfl : current = y := Option.some.inj
                  (Option.some.inj hx)
                exact Or.inr ⟨rfl, by rw [← hvx]; exact hv,
                  c, hvx ▸ List.mem_cons_self _ _, hc⟩
              · rw [if_neg hvx] at hx
                exact Or.inl hx
            · intro x hx
              rcases List.mem_append.mp hx with hx | hx
              · exact Or.inl hx
              · obtain rfl : x = v := by simpa using hx
                refine Or.inr ?_
                rw [f1, if_pos rfl]
            · exact fun x h => List.mem_append.mpr (Or.inl h)
            · intro x y h1 h2
              rw [f1] at h1
              by_cases hvx : v = x
              · exact List.mem_append.mpr (Or.inr (by simp [hvx]))
              · rw [if_neg hvx] at h1
                rw [h1] at h2
                exact absurd (Option.some.inj h2) (by simp)
            · refine Or.inr ⟨current, ?_⟩
              rw [← hsink, f1, if_pos rfl]
            · simp only [List.length_append, List.length_singleton]
              omega
          · have hkeys2 : ∀ vc ∈ rest, 0 < vc.2 →
                (dget? (dset parent v (some current)) vc.1).isSome = true := by
              intro vc hvc hpos
              have hh := hkeys vc (List.mem_cons_of_mem _ hvc) hpos
              rw [dget?_isSome_iff] at hh ⊢
              rw [keys2]
              exact hh
            obtain ⟨parent', queue', heq, spec⟩ := ih
              (dset parent v (some current)) (queue ++ [v]) hkeys2
            refine ⟨parent', queue', by rw [hstep, if_neg hsink]; exact heq,
              ?_⟩
            constructor
            · exact fun x y hx => spec.keep x y (keep2 x y hx)
            · exact spec.keysEq.trans keys2
            · intro x y hx
              rcases spec.newdisc x y hx with h2 | ⟨rfl, h2, c2, hc2, hpos⟩
              · rw [f1] at h2
                by_cases hvx : v = x
                · rw [if_pos hvx] at h2
                  obtain rfl : current = y := Option.some.inj
                    (Option.some.inj h2)
                  exact Or.inr ⟨rfl, by rw [← hvx]; exact hv,
                    c, hvx ▸ List.mem_cons_self _ _, hc⟩
                · rw [if_neg hvx] at h2
                  exact Or.inl h2
              · rw [f1] at h2
                by_cases hvx : v = x
                · rw [if_pos hvx] at h2
                  exact absurd (Option.some.inj h2) (by simp)
                · rw [if_neg hvx] at h2
                  exact Or.inr ⟨rfl, h2, c2,
                    List.mem_cons_of_mem _ hc2, hpos⟩
            · intro x hx
              rcases spec.queueNew x hx with h2 | h2
              · rcases List.mem_append.mp h2 with h3 | h3
                · exact Or.inl h3
                · obtain rfl : x = v := by simpa using h3
                  refine Or.inr (spec.keep _ _ ?_)
                  rw [f1, if_pos rfl]
              · exact Or.inr h2
            · exact fun x h =>
                spec.queueMono x (List.mem_append.mpr (Or.inl h))
            · intro x y h1 h2
              by_cases hvx : v = x
              · exact spec.queueMono x
                  (List.mem_append.mpr (Or.inr (by simp [hvx])))
              · refine spec.newInQueue x y h1 ?_
                rw [f1, if_neg hvx]
                exact h2
            · rcases spec.complete with h2 | h2
              · refine Or.inl ?_
                intro vc hvc hpos
                rcases List.mem_cons.mp hvc with rfl | hvc
                · exact ⟨current, spec.keep _ _ (by rw [f1, if_pos rfl])⟩
                · exact h2 vc hvc hpos
              · exact Or.inr h2
            · have hm := spec.measure
              have hl : (queue ++ [v]).length = queue.length + 1 := by
                simp
              omega
        · -- v already discovered: skip
          have hstep : bfsScan sink current ((v, c) :: rest) parent queue
              = bfsScan sink current rest parent queue := by
            rw [bfsScan, if_pos hc, hv]
          obtain ⟨parent', queue', heq, spec⟩ := ih parent queue
            (fun vc hvc hpos => hkeys vc (List.mem_cons_of_mem _ hvc) hpos)
          refine ⟨parent', queue', by rw [hstep]; exact heq, ?_⟩
          refine ⟨spec.keep, spec.keysEq, ?_, spec.queueNew,
            spec.queueMono, spec.newInQueue, ?_, spec.measure⟩
          · intro x y hx
            rcases spec.newdisc x y hx with h2 | ⟨rfl, h2, c2, hc2, hpos⟩
            · exact Or.inl h2
            · exact Or.inr ⟨rfl, h2, c2, List.mem_cons_of_mem _ hc2, hpos⟩
          · rcases spec.complete with h2 | h2
            · refine Or.inl ?_
              intro vc hvc hpos
              rcases List.mem_cons.mp hvc with rfl | hvc
              · exact ⟨u, spec.keep _ _ hv⟩
              · exact h2 vc hvc hpos
            · exact Or.inr h2
    · -- non-positive capacity: skip without touching parent
      have hstep : bfsScan sink current ((v, c) :: rest) parent queue
          = bfsScan sink current rest parent queue := by
        rw [bfsScan, if_neg hc]
      obtain ⟨parent', queue', heq, spec⟩ := ih parent queue
        (fun vc hvc hpos => hkeys vc (List.mem_cons_of_mem _ hvc) hpos)
      refine ⟨parent', queue', by rw [hstep]; exact heq, ?_⟩
      refine ⟨spec.keep, spec.keysEq, ?_, spec.queueNew,
        spec.queueMono, spec.newInQueue, ?_, spec.measure⟩
      · intro x y hx
        rcases spec.newdisc x y hx with h2 | ⟨rfl, h2, c2, hc2, hpos⟩
        · exact Or.inl h2
        · exact Or.inr ⟨rfl, h2, c2, List.mem_cons_of_mem _ hc2, hpos⟩
      · rcases spec.complete with h2 | h2
        · refine Or.inl ?_
          intro vc hvc hpos
          rcases List.mem_cons.mp hvc with rfl | hvc
          · exact absurd hpos hc
          · exact h2 vc hvc hpos
        · exact Or.inr h2

/-! ### BFS loop specification -/

theorem bfsLoop_spec {res : Graph α} {s t : α}
    (hinner : ∀ uadj ∈ res, (dkeys uadj.2).Nodup)
    (hclosed : ∀ u v, hasEdge res u v = true → v ∈ dkeys res)
    (hs : s ∈ dkeys res) (ht : t ∈ dkeys res) :
    ∀ (fuel : Nat) (queue : List α) (parent : Dict α (Option α)),
      BfsInv res s parent →
      (∀ x ∈ queue, ∃ y, dget? parent x = some (some y)) →
      (dget? parent t = some none →
        ∀ x y, dget? parent x = some (some y) → x ∉ queue →
          ∀ v, 0 < edgeVal res x v → ∃ z, dget? parent v = some (some z)) →
      queue.length + parent.countP (fun e => e.2.isNone) < fuel →
      ∃ parent', bfsLoop res t fuel queue parent = .ok parent'
        ∧ BfsInv res s parent'
        ∧ (dget? parent' t = some none →
            ∀ x y, dget? parent' x = some (some y) →
              ∀ v, 0 < edgeVal res x v →
                ∃ z, dget? parent' v = some (some z)) := by
  intro fuel
  induction fuel with
  | zero =>
    intro queue parent _ _ _ hfuel
    exact absurd hfuel (by omega)
  | succ n ihf =>
    intro queue parent hinv hq hpc hfuel
    cases queue with
    | nil =>
      refine ⟨parent, by rw [bfsLoop], hinv, ?_⟩
      intro hnone x y hx v hpos
      exact hpc hnone x y hx (by simp) v hpos
    | cons current rest =>
      have htk : (dget? parent t).isSome = true := (hinv.keys t).mpr (Or.inl ht)
      rcases hpt : dget? parent t with _ | w
      · rw [hpt] at htk
        exact absurd htk (by simp)
      rcases w with _ | y
      · -- sink still undiscovered: pop `current` and scan its neighbours
        obtain ⟨pcur, hpcur⟩ := hq current (List.mem_cons_self _ _)
        have hcurk : (dget? parent current).isSome = true := by
          rw [hpcur]; rfl
        have hcur : current ∈ dkeys res := by
          rcases (hinv.keys current).mp hcurk with h | rfl
          · exact h
          · exact hs
        obtain ⟨adj, hadj⟩ : ∃ adj, dget? res current = some adj :=
          Option.isSome_iff_exists.mp ((dget?_isSome_iff res current).mpr hcur)
        have hadjmem : (current, adj) ∈ res := dget?_mem hadj
        have hadjnd : (dkeys adj).Nodup := hinner (current, adj) hadjmem
        have hscanKeys : ∀ vc ∈ adj, 0 < vc.2 →
            (dget? parent vc.1).isSome = true := by
          intro vc hvc _
          have hedge : hasEdge res current vc.1 = true := by
            unfold hasEdge
            rw [hadj, Option.getD_some, dget?_isSome_iff]
            exact List.mem_map_of_mem Prod.fst hvc
          exact (hinv.keys vc.1).mpr (Or.inl (hclosed current vc.1 hedge))
        obtain ⟨parent2, queue2, hscan, spec⟩ :=
          bfsScan_spec t current adj parent rest hscanKeys
        have hstepeq : bfsLoop res t (n + 1) (current :: rest) parent
            = bfsLoop res t n queue2 parent2 := by
          rw [bfsLoop, hpt]
          dsimp only
          rw [hadj]
          dsimp only
          rw [hscan]
        have hinv2 : BfsInv res s parent2 := by
          refine ⟨?_, spec.keep s s hinv.src, ?_, ?_, ?_⟩
          · intro x
            rw [dget?_isSome_iff, spec.keysEq, ← dget?_isSome_iff]
            exact hinv.keys x
          · intro x p hxs hx
            rcases spec.newdisc x p hx with h2 | ⟨hpeq, h2, c2, hc2, hpos⟩
            · exact hinv.edge x p hxs h2
            · rw [hpeq]
              have hval : edgeVal res current x = c2 := by
                unfold edgeVal
                rw [hadj, Option.getD_some, mem_dget?_of_nodup hadjnd hc2]
                rfl
              rw [hval]
              exact hpos
          · intro x p hx
            rcases spec.newdisc x p hx with h2 | ⟨hpeq, h2, c2, hc2, hpos⟩
            · obtain ⟨ch, hch⟩ := hinv.ground x p h2
              exact ⟨ch, parentPath_mono spec.keep hch⟩
            · rw [hpeq] at hx
              obtain ⟨chc, hchc⟩ := hinv.ground current pcur hpcur
              have hxs : x ≠ s := by
                intro hxe
                rw [hxe, hinv.src] at h2
                exact absurd (Option.some.inj h2) (by simp)
              have hxnot : x ∉ pathNodes chc current := by
                intro hmem
                obtain ⟨q, hq2⟩ := parentPath_entry hchc hinv.src x hmem
                rw [hq2] at h2
                exact absurd (Option.some.inj h2) (by simp)
              exact ⟨(current, x) :: chc,
                ParentPath.cons hxs hx hxnot (parentPath_mono spec.keep hchc)⟩
          · rw [spec.keysEq]
            exact hinv.nodupKeys
        have hq2 : ∀ x ∈ queue2, ∃ y, dget? parent2 x = some (some y) := by
          intro x hx
          rcases spec.queueNew x hx with h2 | h2
          · obtain ⟨y, hy⟩ := hq x (List.mem_cons_of_mem _ h2)
            exact ⟨y, spec.keep x y hy⟩
          · exact ⟨current, h2⟩
        have hpc2 : dget? parent2 t = some none →
            ∀ x y, dget? parent2 x = some (some y) → x ∉ queue2 →
              ∀ v, 0 < edgeVal res x v →
                ∃ z, dget? parent2 v = some (some z) := by
          intro hnone2 x y hx2 hxq v hpos
          by_cases hxc : x = current
          · subst hxc
            rcases spec.complete with hcomp | ⟨z, hz⟩
            · have hposadj : 0 < edgeVal res x v := hpos
              have : ∃ c, dget? adj v = some c ∧ 0 < c := by
                unfold edgeVal at hposadj
                rw [hadj, Option.getD_some] at hposadj
                rcases hv2 : dget? adj v with _ | c
                · rw [hv2] at hposadj
                  exact absurd hposadj (by simp)
                · rw [hv2] at hposadj
                  exact ⟨c, rfl, by simpa using hposadj⟩
              obtain ⟨c, hc, hcpos⟩ := this
              exact hcomp (v, c) (dget?_mem hc) hcpos
            · rw [hz] at hnone2
              exact absurd (Option.some.inj hnone2) (by simp)
          · rcases spec.newdisc x y hx2 with h2 | ⟨hyeq, h2, c2, hc2, hcpos⟩
            · have hxrest : x ∉ rest := by
                intro hmem
                exact hxq (spec.queueMono x hmem)
              have hxqueue : x ∉ current :: rest := by
                intro hmem
                rcases List.mem_cons.mp hmem with h3 | h3
                · exact hxc h3
                · exact hxrest h3
              obtain ⟨z, hz⟩ := hpc hpt x y h2 hxqueue v hpos
              exact ⟨z, spec.keep v z hz⟩
            · exact absurd (spec.newInQueue x y hx2 h2) hxq
        have hmeas2 : queue2.length
            + parent2.countP (fun e => e.2.isNone) < n := by
          have hm := spec.measure
          have hcn : 0 < parent.countP (fun e => e.2.isNone) := by
            have : ∃ e ∈ parent, (fun e : α × Option α => e.2.isNone) e
                = true := by
              refine ⟨(t, none), dget?_mem hpt, rfl⟩
            calc 0 < 1 := Nat.one_pos
              _ ≤ parent.countP (fun e => e.2.isNone) :=
                List.countP_pos.mpr (by
                  obtain ⟨e, he, hpe⟩ := this
                  exact ⟨e, he, hpe⟩)
          simp only [List.length_cons] at hfuel
          omega
        obtain ⟨parent', hloop, hinv', hclose'⟩ :=
          ihf queue2 parent2 hinv2 hq2 hpc2 hmeas2
        exact ⟨parent', by rw [hstepeq]; exact hloop, hinv', hclose'⟩
      · -- sink already discovered: the loop exits at once
        refine ⟨parent, ?_, hinv, ?_⟩
        · rw [bfsLoop, hpt]
        · intro hnone
          rw [hpt] at hnone
          exact absurd (Option.some.inj hnone) (by simp)

/-- The BFS phase of `edmonds_karp` always succeeds when source and sink
are keys of a well-formed, reverse-closed residual graph, and its `parent`
dictionary satisfies the search invariant; when the sink ends up
undiscovered, the discovered set is closed under positive-residual edges. -/
theorem bfs_spec {res : Graph α} {s t : α}
    (hinner : ∀ uadj ∈ res, (dkeys uadj.2).Nodup)
    (hclosed : ∀ u v, hasEdge res u v = true → v ∈ dkeys res)
    (hknd : (dkeys res).Nodup)
    (hs : s ∈ dkeys res) (ht : t ∈ dkeys res) :
    ∃ parent, bfs res s t = .ok parent ∧ BfsInv res s parent
      ∧ (dget? parent t = some none →
          ∀ x y, dget? parent x = some (some y) →
            ∀ v, 0 < edgeVal res x v →
              ∃ z, dget? parent v = some (some z)) := by
  have hp0 : ∀ q, dget? ((dkeys res).map fun n => (n, (none : Option α))) q
      = if q ∈ dkeys res then some none else none :=
    fun q => dget?_map_none (dkeys res) q
  have hpar : ∀ q, dget? (dset ((dkeys res).map fun n => (n, (none : Option α)))
      s (some s)) q
      = if s = q then some (some s)
        else if q ∈ dkeys res then some none else none := by
    intro q
    rw [dget?_dset, hp0]
  have hkeys0 : dkeys ((dkeys res).map fun n => (n, (none : Option α)))
      = dkeys res := by
    unfold dkeys
    rw [List.map_map]
    exact List.map_id _
  have hinv : BfsInv res s (dset ((dkeys res).map
      fun n => (n, (none : Option α))) s (some s)) := by
    refine ⟨?_, ?_, ?_, ?_, ?_⟩
    · intro x
      rw [hpar]
      by_cases hx : s = x
      · simp [hx]
      · by_cases hx2 : x ∈ dkeys res
        · simp [hx, hx2]
        · have : ¬ x = s := fun h => hx h.symm
          simp [hx, hx2, this]
    · rw [hpar, if_pos rfl]
    · intro x p hxs hx
      rw [hpar, if_neg (fun h => hxs h.symm)] at hx
      by_cases hx2 : x ∈ dkeys res
      · rw [if_pos hx2] at hx
        exact absurd (Option.some.inj hx) (by simp)
      · rw [if_neg hx2] at hx
        cases hx
    · intro x p hx
      by_cases hxs : x = s
      · exact ⟨[], hxs ▸ ParentPath.nil⟩
      · rw [hpar, if_neg (fun h => hxs h.symm)] at hx
        by_cases hx2 : x ∈ dkeys res
        · rw [if_pos hx2] at hx
          exact absurd (Option.some.inj hx) (by simp)
        · rw [if_neg hx2] at hx
          cases hx
    · rw [dkeys_dset_of_mem _ (by rw [hkeys0]; exact hs), hkeys0]
      exact hknd
  have hqinit : ∀ x ∈ [s], ∃ y,
      dget? (dset ((dkeys res).map fun n => (n, (none : Option α)))
        s (some s)) x = some (some y) := by
    intro x hx
    have hx2 : x = s := by simpa using hx
    rw [hx2]
    exact ⟨s, hinv.src⟩
  have hpcinit : dget? (dset ((dkeys res).map
        fun n => (n, (none : Option α))) s (some s)) t = some none →
      ∀ x y, dget? (dset ((dkeys res).map
        fun n => (n, (none : Option α))) s (some s)) x = some (some y) →
      x ∉ [s] → ∀ v, 0 < edgeVal res x v →
      ∃ z, dget? (dset ((dkeys res).map
        fun n => (n, (none : Option α))) s (some s)) v = some (some z) := by
    intro _ x y hx hxq v _
    exfalso
    by_cases hxs : x = s
    · exact hxq (by simp [hxs])
    · rw [hpar, if_neg (fun h => hxs h.symm)] at hx
      by_cases hx2 : x ∈ dkeys res
      · rw [if_pos hx2] at hx
        exact absurd (Option.some.inj hx) (by simp)
      · rw [if_neg hx2] at hx
        cases hx
  have hfuel : ([s] : List α).length
      + (dset ((dkeys res).map fun n => (n, (none : Option α)))
          s (some s)).countP (fun e => e.2.isNone)
      < (dset ((dkeys res).map fun n => (n, (none : Option α)))
          s (some s)).length + 2 := by
    have := List.countP_le_length
      (l := dset ((dkeys res).map fun n => (n, (none : Option α)))
        s (some s)) (p := fun e => e.2.isNone)
    simp only [List.length_singleton]
    omega
  obtain ⟨parent', hloop, hinv', hclose'⟩ :=
    bfsLoop_spec hinner hclosed hs ht _ [s] _ hinv hqinit hpcinit hfuel
  exact ⟨parent', hloop, hinv', hclose'⟩

/-! ### Residual closure and C7 -/

theorem buildResidual_closed {g : Graph α} (hwf : DictWF g) :
    ∀ u v, hasEdge (buildResidual g) u v = true →
      v ∈ dkeys (buildResidual g) := by
  intro u v h
  rw [hasEdge_buildResidual hwf.1] at h
  rcases Bool.or_eq_true_iff.mp h with h | h
  · rcases hu : dget? g u with _ | adj
    · unfold hasEdge at h
      rw [hu] at h
      simp [dget?] at h
    · have hv : v ∈ dkeys adj := by
        unfold hasEdge at h
        rw [hu, Option.getD_some, dget?_isSome_iff] at h
        exact h
      exact (mem_dkeys_buildResidual hwf.1 v).mpr (isNode_target hu hv)
  · have hv : v ∈ dkeys g := by
      rcases hv2 : dget? g v with _ | adj
      · unfold hasEdge at h
        rw [hv2] at h
        simp [dget?] at h
      · exact (dget?_isSome_iff g v).mp (by rw [hv2]; rfl)
    exact (mem_dkeys_buildResidual hwf.1 v).mpr (isNode_key hv)

theorem posReach_buildResidual (g : Graph α) (s x : α) :
    PosReach (buildResidual g) s x ↔ PosReach g s x := by
  unfold PosReach
  have heq : (fun a b => 0 < edgeVal (buildResidual g) a b)
      = fun a b => 0 < edgeVal g a b := by
    funext a b
    rw [edgeVal_buildResidual]
  rw [heq]

/-- An exit of the augmenting loop with an undiscovered sink: return the
current accumulator and flow map. -/
theorem ekLoop_exit {residual : Graph α} {s t : α}
    {parent : Dict α (Option α)} (n : Nat) (f : Graph α) (mf : Option Int)
    (hbfs : bfs residual s t = .ok parent)
    (hpt : dget? parent t = some none) :
    ekLoop s t (n + 1) residual f mf = .ok mf f := by
  rw [ekLoop, hbfs]
  dsimp only
  rw [hpt]

/-- C7: when the sink is unreachable from the source along positive-capacity
edges (source and sink both in the node set), `edmonds_karp` returns
max flow `0` and the empty flow map — no error. -/
theorem C7_unreachable_sink_zero_flow (g : Graph α) (s t : α)
    (hwf : DictWF g) (hs : isNode g s = true) (ht : isNode g t = true)
    (hunreach : ¬ PosReach g s t) :
    edmonds_karp g s t = EKRes.ok (some 0) [] := by
  have hrwf := dictWF_buildResidual hwf
  have hsk : s ∈ dkeys (buildResidual g) :=
    (mem_dkeys_buildResidual hwf.1 s).mpr hs
  have htk : t ∈ dkeys (buildResidual g) :=
    (mem_dkeys_buildResidual hwf.1 t).mpr ht
  obtain ⟨parent, hbfs, hinv, _⟩ := bfs_spec hrwf.2
    (buildResidual_closed hwf) hrwf.1 hsk htk
  have hpt : dget? parent t = some none := by
    have htsome : (dget? parent t).isSome = true :=
      (hinv.keys t).mpr (Or.inl htk)
    rcases hv : dget? parent t with _ | w
    · rw [hv] at htsome
      exact absurd htsome (by simp)
    · rcases w with _ | y
      · rfl
      · exfalso
        obtain ⟨ch, hch⟩ := hinv.ground t y hv
        have : PosReach (buildResidual g) s t :=
          parentPath_posReach hch (fun a b hb hab => hinv.edge b a hb hab)
        exact hunreach ((posReach_buildResidual g s t).mp this)
  exact ekLoop_exit ((posOutCap g s).toNat + 1) [] (some 0) hbfs hpt

/-- In `gUnreach`, the only node reachable from `S` over positive edges
besides `S` itself is `A`; in particular `T` is unreachable. -/
theorem gUnreach_not_reach : ¬ PosReach gUnreach "S" "T" := by
  have hinv : ∀ x, PosReach gUnreach "S" x → x = "S" ∨ x = "A" := by
    intro x hx
    induction hx with
    | refl => exact Or.inl rfl
    | tail hab hbc ih =>
      rename_i b c
      rcases ih with rfl | rfl
      · by_cases hc : c = "A"
        · exact Or.inr hc
        · exfalso
          have : edgeVal gUnreach "S" c = 0 := by
            unfold edgeVal gUnreach
            have : ¬ ("A" : String) = c := fun h => hc h.symm
            simp [dget?, this]
          rw [this] at hbc
          exact absurd hbc (by simp)
      · exfalso
        have : edgeVal gUnreach "A" c = 0 := by
          unfold edgeVal gUnreach
          simp [dget?]
        rw [this] at hbc
        exact absurd hbc (by simp)
  intro h
  rcases hinv "T" h with h1 | h1 <;> exact absurd h1 (by decide)

/-- Witness for C7 at a concrete input: in `gUnreach` the sink `T` is a
node but unreachable from `S`, and the call returns `(0, {})`. -/
theorem C7_witness :
    DictWF gUnreach ∧ isNode gUnreach "S" = true
    ∧ isNode gUnreach "T" = true
    ∧ edmonds_karp gUnreach "S" "T" = EKRes.ok (some 0) [] := by
  refine ⟨?_, by decide, by decide, ?_⟩
  · constructor
    · decide
    · intro uadj h
      rcases List.mem_cons.mp h with h | h
      · rw [h]
        decide
      · rcases List.mem_cons.mp h with h | h
        · rw [h]
          decide
        · simp at h
  · refine C7_unreachable_sink_zero_flow gUnreach "S" "T" ?_ (by decide)
      (by decide) gUnreach_not_reach
    constructor
    · decide
    · intro uadj h
      rcases List.mem_cons.mp h with h | h
      · rw [h]
        decide
      · rcases List.mem_cons.mp h with h | h
        · rw [h]
          decide
        · simp at h

/-! ### Sum and count helpers -/

theorem sum_map_congr {γ : Type} {L : List γ} (F G : γ → Int)
    (h : ∀ x ∈ L, F x = G x) : (L.map F).sum = (L.map G).sum := by
  induction L with
  | nil => rfl
  | cons x rest ih =>
    simp only [List.map_cons, List.sum_cons]
    rw [h x (List.mem_cons_self _ _),
      ih (fun y hy => h y (List.mem_cons_of_mem _ hy))]

theorem sum_map_sub {γ : Type} (L : List γ) (F G : γ → Int) :
    (L.map fun x => F x - G x).sum = (L.map F).sum - (L.map G).sum := by
  induction L with
  | nil => simp
  | cons x rest ih =>
    simp only [List.map_cons, List.sum_cons, ih]
    ring

theorem sum_map_add {γ : Type} (L : List γ) (F G : γ → Int) :
    (L.map fun x => F x + G x).sum = (L.map F).sum + (L.map G).sum := by
  induction L with
  | nil => simp
  | cons x rest ih =>
    simp only [List.map_cons, List.sum_cons, ih]
    ring

theorem sum_map_mul {γ : Type} (L : List γ) (c : Int) (F : γ → Int) :
    (L.map fun x => c * F x).sum = c * (L.map F).sum := by
  induction L with
  | nil => simp
  | cons x rest ih =>
    simp only [List.map_cons, List.sum_cons, ih]
    ring

theorem sum_single_diff {L : List α} {a : α} (F G : α → Int)
    (hnd : L.Nodup) (ha : a ∈ L) (heq : ∀ x ∈ L, x ≠ a → F x = G x) :
    (L.map F).sum = (L.map G).sum + (F a - G a) := by
  induction L with
  | nil => cases ha
  | cons x rest ih =>
    simp only [List.map_cons, List.sum_cons]
    rcases List.mem_cons.mp ha with rfl | ha2
    · have hnotin : a ∉ rest := (List.nodup_cons.mp hnd).1
      have : (rest.map F).sum = (rest.map G).sum :=
        sum_map_congr F G (fun y hy => heq y (List.mem_cons_of_mem _ hy)
          (fun h => hnotin (h ▸ hy)))
      rw [this]
      ring
    · have hxa : x ≠ a := by
        intro h
        exact (List.nodup_cons.mp hnd).1 (h ▸ ha2)
      rw [heq x (List.mem_cons_self _ _) hxa,
        ih (List.nodup_cons.mp hnd).2 ha2
          (fun y hy hya => heq y (List.mem_cons_of_mem _ hy) hya)]
      ring

theorem countPair_nonneg (ch : List (α × α)) (u v : α) :
    0 ≤ countPair ch u v := by
  induction ch with
  | nil => simp [countPair]
  | cons e rest ih =>
    rw [countPair]
    by_cases h : e = (u, v) <;> simp [h] <;> omega

theorem countElem_nonneg (l : List α) (a : α) : 0 ≤ countElem l a := by
  induction l with
  | nil => simp [countElem]
  | cons x rest ih =>
    rw [countElem]
    by_cases h : x = a <;> simp [h] <;> omega

theorem countElem_nodup {l : List α} (hnd : l.Nodup) (a : α) :
    countElem l a = if a ∈ l then 1 else 0 := by
  induction l with
  | nil => simp [countElem]
  | cons x rest ih =>
    rw [countElem, ih (List.nodup_cons.mp hnd).2]
    by_cases hx : x = a
    · subst hx
      have : x ∉ rest := (List.nodup_cons.mp hnd).1
      simp [this]
    · have hax : ¬ a = x := fun h => hx h.symm
      by_cases ha : a ∈ rest <;> simp [hx, hax, ha]

theorem countPair_le_fst (ch : List (α × α)) (a w : α) :
    countPair ch a w ≤ countElem (ch.map Prod.fst) a := by
  induction ch with
  | nil => simp [countPair, countElem]
  | cons e rest ih =>
    obtain ⟨p, n⟩ := e
    rw [countPair, show ((p, n) :: rest).map Prod.fst
      = p :: rest.map Prod.fst from rfl, countElem]
    by_cases h1 : (p, n) = (a, w)
    · have h2 : p = a := congrArg Prod.fst h1
      rw [if_pos h1, if_pos h2]
      have := ih
      omega
    · rw [if_neg h1]
      by_cases h2 : p = a
      · rw [if_pos h2]
        have := ih
        omega
      · rw [if_neg h2]
        have := ih
        omega

theorem countPair_zero_of_fst {ch : List (α × α)} {a : α}
    (h : countElem (ch.map Prod.fst) a = 0) (w : α) :
    countPair ch a w = 0 := by
  have h1 := countPair_le_fst ch a w
  have h2 := countPair_nonneg ch a w
  omega

theorem countPair_fst_unique {ch : List (α × α)} {a : α}
    (h : countElem (ch.map Prod.fst) a = 1) :
    ∃ w1, (a, w1) ∈ ch ∧
      ∀ w, countPair ch a w = if w = w1 then 1 else 0 := by
  induction ch with
  | nil => simp [countElem] at h
  | cons e rest ih =>
    obtain ⟨p, n⟩ := e
    rw [show ((p, n) :: rest).map Prod.fst = p :: rest.map Prod.fst from rfl,
      countElem] at h
    by_cases hp : p = a
    · subst hp
      have hrest : countElem (rest.map Prod.fst) p = 0 := by
        simp at h
        omega
      refine ⟨n, List.mem_cons_self _ _, ?_⟩
      intro w
      rw [countPair, countPair_zero_of_fst hrest w]
      by_cases hw : w = n
      · subst hw
        simp
      · have : ¬ (p, n) = (p, w) := by
          simp
          exact fun h2 => hw h2.symm
        simp [this, hw]
    · rw [if_neg hp] at h
      simp only [zero_add] at h
      obtain ⟨w1, hmem, hcnt⟩ := ih h
      refine ⟨w1, List.mem_cons_of_mem _ hmem, ?_⟩
      intro w
      rw [countPair, hcnt w]
      have : ¬ (p, n) = (a, w) := by
        simp
        intro h2
        exact absurd h2 hp
      simp [this]

/-! ### Flow and residual update lemmas -/

theorem fadd_edgeVal (f : Graph α) (a b : α) (d : Int) (u v : α) :
    edgeVal (fadd f a b d) u v
      = if a = u ∧ b = v then edgeVal f u v + d else edgeVal f u v := by
  unfold fadd
  rw [edgeVal_dset]
  by_cases hau : a = u
  · subst hau
    rw [if_pos rfl, dget?_dset]
    by_cases hbv : b = v
    · subst hbv
      rw [if_pos rfl]
      simp [edgeVal]
    · rw [if_neg hbv, if_neg (fun h : a = a ∧ b = v => hbv h.2)]
      rfl
  · rw [if_neg hau, if_neg (fun h : a = u ∧ b = v => hau h.1)]

theorem resAdd_eq {res : Graph α} {a b : α} {d : Int} {res2 : Graph α}
    (h : resAdd res a b d = some res2) :
    ∃ adj c, dget? res a = some adj ∧ dget? adj b = some c ∧
      res2 = dset res a (dset adj b (c + d)) := by
  unfold resAdd at h
  rcases ha : dget? res a with _ | adj
  · rw [ha] at h
    cases h
  · rw [ha] at h
    dsimp only at h
    rcases hb : dget? adj b with _ | c
    · rw [hb] at h
      cases h
    · rw [hb] at h
      dsimp only at h
      exact ⟨adj, c, rfl, hb, (Option.some.inj h).symm⟩

theorem hasEdge_elim {res : Graph α} {p n : α}
    (h : hasEdge res p n = true) :
    ∃ adj c, dget? res p = some adj ∧ dget? adj n = some c
      ∧ edgeVal res p n = c := by
  unfold hasEdge at h
  rcases ha : dget? res p with _ | adj
  · rw [ha] at h
    simp [dget?] at h
  · rw [ha, Option.getD_some] at h
    rcases hb : dget? adj n with _ | c
    · rw [hb] at h
      simp at h
    · refine ⟨adj, c, rfl, hb, ?_⟩
      unfold edgeVal
      rw [ha, Option.getD_some, hb]
      rfl

theorem resAdd_some {res : Graph α} {a b : α} (d : Int)
    (h : hasEdge res a b = true) :
    ∃ res2, resAdd res a b d = some res2 := by
  obtain ⟨adj, c, ha, hb, _⟩ := hasEdge_elim h
  refine ⟨dset res a (dset adj b (c + d)), ?_⟩
  unfold resAdd
  rw [ha]
  dsimp only
  rw [hb]

theorem resAdd_edgeVal {res res2 : Graph α} {a b : α} {d : Int}
    (h : resAdd res a b d = some res2) (u v : α) :
    edgeVal res2 u v
      = if a = u ∧ b = v then edgeVal res u v + d else edgeVal res u v := by
  obtain ⟨adj, c, ha, hb, rfl⟩ := resAdd_eq h
  rw [edgeVal_dset]
  by_cases hau : a = u
  · subst hau
    rw [if_pos rfl, dget?_dset]
    by_cases hbv : b = v
    · subst hbv
      rw [if_pos rfl]
      have : edgeVal res a b = c := by
        unfold edgeVal
        rw [ha, Option.getD_some, hb]
        rfl
      simp [this]
    · rw [if_neg hbv, if_neg (fun h2 : a = a ∧ b = v => hbv h2.2)]
      unfold edgeVal
      rw [ha, Option.getD_some]
  · rw [if_neg hau, if_neg (fun h2 : a = u ∧ b = v => hau h2.1)]

theorem resAdd_rowKeys {res res2 : Graph α} {a b : α} {d : Int}
    (h : resAdd res a b d = some res2) (x : α) :
    dkeys ((dget? res2 x).getD []) = dkeys ((dget? res x).getD []) := by
  obtain ⟨adj, c, ha, hb, rfl⟩ := resAdd_eq h
  rw [dget?_dset]
  by_cases hax : a = x
  · subst hax
    rw [if_pos rfl, ha, Option.getD_some, Option.getD_some]
    exact dkeys_dset_of_mem _ ((dget?_isSome_iff adj b).mp (by rw [hb]; rfl))
  · rw [if_neg hax]

theorem resAdd_keys {res res2 : Graph α} {a b : α} {d : Int}
    (h : resAdd res a b d = some res2) : dkeys res2 = dkeys res := by
  obtain ⟨adj, c, ha, hb, rfl⟩ := resAdd_eq h
  exact dkeys_dset_of_mem _ ((dget?_isSome_iff res a).mp (by rw [ha]; rfl))

theorem resAdd_innerNodup {res res2 : Graph α} {a b : α} {d : Int}
    (h : resAdd res a b d = some res2)
    (hnd : ∀ uadj ∈ res, (dkeys uadj.2).Nodup) :
    ∀ uadj ∈ res2, (dkeys uadj.2).Nodup := by
  obtain ⟨adj, c, ha, hb, rfl⟩ := resAdd_eq h
  intro uadj hmem
  rcases mem_dset hmem with h2 | h2
  · exact hnd uadj h2
  · subst h2
    exact nodup_dkeys_dset _ (hnd (a, adj) (dget?_mem ha))

/-- Row-key preservation implies entry (`hasEdge`) preservation. -/
theorem rowKeys_hasEdge {d1 d2 : Graph α}
    (h : ∀ x, dkeys ((dget? d2 x).getD []) = dkeys ((dget? d1 x).getD []))
    (u v : α) : hasEdge d2 u v = hasEdge d1 u v := by
  have h1 : hasEdge d2 u v = true ↔ hasEdge d1 u v = true := by
    unfold hasEdge
    rw [dget?_isSome_iff, dget?_isSome_iff, h u]
  rcases hb : hasEdge d1 u v with _ | _
  · rcases hb2 : hasEdge d2 u v with _ | _
    · rfl
    · rw [hb] at h1
      exact absurd (h1.mp hb2) (by simp)
  · exact h1.mpr hb

/-! ### Augmentation specification -/

theorem augment_spec (pf : Int) :
    ∀ (ch : List (α × α)) (res flow : Graph α),
      (∀ e ∈ ch, hasEdge res e.1 e.2 = true ∧ hasEdge res e.2 e.1 = true) →
      ∃ res' flow', augment pf ch res flow = some (res', flow')
        ∧ AugSpec pf ch res flow res' flow' := by
  intro ch
  induction ch with
  | nil =>
    intro res flow hedges
    refine ⟨res, flow, rfl, ?_, ?_, fun x => rfl, rfl, fun h => h⟩
    · intro u v
      simp [countPair]
    · intro u v
      simp [countPair]
  | cons e rest ih =>
    obtain ⟨p, n⟩ := e
    intro res flow hedges
    obtain ⟨hpn, hnp⟩ := hedges (p, n) (List.mem_cons_self _ _)
    obtain ⟨res1, hres1⟩ := resAdd_some (-pf) hpn
    have hres1Rows := resAdd_rowKeys hres1
    have hnp1 : hasEdge res1 n p = true := by
      rw [rowKeys_hasEdge hres1Rows]
      exact hnp
    obtain ⟨res2, hres2⟩ := resAdd_some pf hnp1
    have hres2Rows := resAdd_rowKeys hres2
    have hrows12 : ∀ x, dkeys ((dget? res2 x).getD [])
        = dkeys ((dget? res x).getD []) :=
      fun x => (hres2Rows x).trans (hres1Rows x)
    have hedges2 : ∀ e ∈ rest, hasEdge res2 e.1 e.2 = true
        ∧ hasEdge res2 e.2 e.1 = true := by
      intro e he
      rw [rowKeys_hasEdge hrows12, rowKeys_hasEdge hrows12]
      exact hedges e (List.mem_cons_of_mem _ he)
    obtain ⟨res', flow', heq, spec⟩ :=
      ih res2 (fadd (fadd flow p n pf) n p (-pf)) hedges2
    have hstep : augment pf ((p, n) :: rest) res flow
        = augment pf rest res2 (fadd (fadd flow p n pf) n p (-pf)) := by
      rw [augment, hres1]
      dsimp only
      rw [hres2]
    refine ⟨res', flow', by rw [hstep]; exact heq, ?_, ?_, ?_, ?_, ?_⟩
    · intro u v
      rw [spec.f_val u v, fadd_edgeVal, fadd_edgeVal]
      rw [countPair, countPair]
      simp only [Prod.mk.injEq]
      simp only [show (p = v ∧ n = u) ↔ (n = u ∧ p = v) from and_comm]
      by_cases hA2 : p = u ∧ n = v
      · obtain ⟨h1, h2⟩ := hA2
        subst h1
        subst h2
        by_cases hnp2 : n = p
        · subst hnp2
          simp <;> ring
        · have hB2 : ¬ (n = p ∧ p = n) := fun h => hnp2 h.1
          simp [hB2] <;> ring
      · by_cases hB2 : n = u ∧ p = v
        · obtain ⟨h1, h2⟩ := hB2
          subst h1
          subst h2
          simp [hA2] <;> ring
        · simp [hA2, hB2] <;> ring
    · intro u v
      rw [spec.r_val u v, resAdd_edgeVal hres2, resAdd_edgeVal hres1]
      rw [countPair, countPair]
      simp only [Prod.mk.injEq]
      simp only [show (p = v ∧ n = u) ↔ (n = u ∧ p = v) from and_comm]
      by_cases hA2 : p = u ∧ n = v
      · obtain ⟨h1, h2⟩ := hA2
        subst h1
        subst h2
        by_cases hnp2 : n = p
        · subst hnp2
          simp <;> ring
        · have hB2 : ¬ (n = p ∧ p = n) := fun h => hnp2 h.1
          simp [hB2] <;> ring
      · by_cases hB2 : n = u ∧ p = v
        · obtain ⟨h1, h2⟩ := hB2
          subst h1
          subst h2
          simp [hA2] <;> ring
        · simp [hA2, hB2] <;> ring
    · intro x
      exact (spec.r_rowKeys x).trans (hrows12 x)
    · rw [spec.r_keys, resAdd_keys hres2, resAdd_keys hres1]
    · intro hnd
      exact spec.r_innerNodup
        (resAdd_innerNodup hres2 (resAdd_innerNodup hres1 hnd))

/-! ### Bottleneck specification -/

theorem pathMin_spec {res : Graph α} :
    ∀ (ch : List (α × α)),
      (∀ e ∈ ch, hasEdge res e.1 e.2 = true) →
      ∀ acc, ∃ mv, pathMin res ch acc = some mv
        ∧ (mv = none → ch = [] ∧ acc = none)
        ∧ (∀ b, mv = some b →
            (∀ e ∈ ch, b ≤ edgeVal res e.1 e.2)
            ∧ (∀ a, acc = some a → b ≤ a)
            ∧ ((∀ e ∈ ch, 0 < edgeVal res e.1 e.2) →
               (∀ a, acc = some a → 0 < a) → 0 < b)) := by
  intro ch
  induction ch with
  | nil =>
    intro _ acc
    refine ⟨acc, rfl, fun h => ⟨rfl, h⟩, ?_⟩
    intro b hb
    refine ⟨fun e he => absurd he (by simp), ?_, ?_⟩
    · intro a ha
      rw [ha] at hb
      exact le_of_eq (Option.some.inj hb).symm
    · intro _ hacc
      exact hacc b hb
  | cons e rest ih =>
    obtain ⟨p, n⟩ := e
    intro hedges acc
    obtain ⟨adj, c, hadj, hc, hval⟩ :=
      hasEdge_elim (hedges (p, n) (List.mem_cons_self _ _))
    have hrest : ∀ e ∈ rest, hasEdge res e.1 e.2 = true :=
      fun e he => hedges e (List.mem_cons_of_mem _ he)
    rcases acc with _ | a0
    · have hstep : pathMin res ((p, n) :: rest) none
          = pathMin res rest (some c) := by
        rw [pathMin]
        dsimp only
        rw [hadj]
        dsimp only
        rw [hc]
      obtain ⟨mv, heq, hnone, hsome⟩ := ih hrest (some c)
      refine ⟨mv, by rw [hstep]; exact heq, ?_, ?_⟩
      · intro h
        obtain ⟨_, h2⟩ := hnone h
        cases h2
      · intro b hb
        obtain ⟨hbd, hacc, hpos⟩ := hsome b hb
        refine ⟨?_, ?_, ?_⟩
        · intro e he
          rcases List.mem_cons.mp he with h3 | h3
          · rw [h3]
            rw [show edgeVal res ((p, n) : α × α).1 ((p, n) : α × α).2 = c
              from hval]
            exact hacc c rfl
          · exact hbd e h3
        · intro a ha
          cases ha
        · intro hposall _
          refine hpos (fun e he => hposall e (List.mem_cons_of_mem _ he)) ?_
          intro a ha
          obtain rfl := Option.some.inj ha
          have hh := hposall (p, n) (List.mem_cons_self _ _)
          rw [hval] at hh
          exact hh
    · have hstep : pathMin res ((p, n) :: rest) (some a0)
          = pathMin res rest (some (min a0 c)) := by
        rw [pathMin]
        dsimp only
        rw [hadj]
        dsimp only
        rw [hc]
      obtain ⟨mv, heq, hnone, hsome⟩ := ih hrest (some (min a0 c))
      refine ⟨mv, by rw [hstep]; exact heq, ?_, ?_⟩
      · intro h
        obtain ⟨_, h2⟩ := hnone h
        cases h2
      · intro b hb
        obtain ⟨hbd, hacc, hpos⟩ := hsome b hb
        refine ⟨?_, ?_, ?_⟩
        · intro e he
          rcases List.mem_cons.mp he with h3 | h3
          · rw [h3]
            rw [show edgeVal res ((p, n) : α × α).1 ((p, n) : α × α).2 = c
              from hval]
            exact le_trans (hacc (min a0 c) rfl) (min_le_right a0 c)
          · exact hbd e h3
        · intro a ha
          have h4 : a0 = a := Option.some.inj ha
          calc b ≤ min a0 c := hacc (min a0 c) rfl
            _ ≤ a0 := min_le_left _ _
            _ = a := h4
        · intro hposall haccpos
          refine hpos (fun e he => hposall e (List.mem_cons_of_mem _ he)) ?_
          intro a ha
          have h4 : min a0 c = a := Option.some.inj ha
          have h5 : 0 < a0 := haccpos a0 rfl
          have h6 : 0 < c := by
            have hh := hposall (p, n) (List.mem_cons_self _ _)
            rw [hval] at hh
            exact hh
          rw [← h4]
          exact lt_min h5 h6

/-! ### Counting and summation toolkit for the augmenting loop -/

theorem countElem_not_mem {l : List α} {a : α} (h : a ∉ l) :
    countElem l a = 0 := by
  induction l with
  | nil => rfl
  | cons x rest ih =>
    rw [countElem]
    have hx : ¬ x = a := fun hx => h (hx ▸ List.mem_cons_self _ _)
    rw [if_neg hx, ih (fun h2 => h (List.mem_cons_of_mem _ h2))]
    ring

theorem countElem_append (l1 l2 : List α) (a : α) :
    countElem (l1 ++ l2) a = countElem l1 a + countElem l2 a := by
  induction l1 with
  | nil => simp [countElem]
  | cons x rest ih =>
    rw [List.cons_append, countElem, countElem, ih]
    ring

theorem countPair_mem_of_ne_zero {ch : List (α × α)} {u v : α}
    (h : countPair ch u v ≠ 0) : (u, v) ∈ ch := by
  induction ch with
  | nil => exact absurd rfl h
  | cons e rest ih =>
    rw [countPair] at h
    by_cases he : e = (u, v)
    · exact he ▸ List.mem_cons_self _ _
    · rw [if_neg he, zero_add] at h
      exact List.mem_cons_of_mem _ (ih h)

theorem countPair_le_snd (ch : List (α × α)) (a w : α) :
    countPair ch a w ≤ countElem (ch.map Prod.snd) w := by
  induction ch with
  | nil => simp [countPair, countElem]
  | cons e rest ih =>
    obtain ⟨p, n⟩ := e
    rw [countPair, show ((p, n) :: rest).map Prod.snd
      = n :: rest.map Prod.snd from rfl, countElem]
    by_cases h1 : (p, n) = (a, w)
    · have h2 : n = w := congrArg Prod.snd h1
      rw [if_pos h1, if_pos h2]
      omega
    · rw [if_neg h1]
      by_cases h2 : n = w
      · rw [if_pos h2]
        omega
      · rw [if_neg h2]
        omega

theorem countPair_zero_of_snd {ch : List (α × α)} {w : α}
    (h : countElem (ch.map Prod.snd) w = 0) (a : α) :
    countPair ch a w = 0 := by
  have h1 := countPair_le_snd ch a w
  have h2 := countPair_nonneg ch a w
  omega

/-- Summing an equality indicator over a list counts the occurrences. -/
theorem sum_indicator (NL : List α) (a : α) :
    (NL.map fun w => (if a = w then 1 else 0 : Int)).sum = countElem NL a := by
  induction NL with
  | nil => rfl
  | cons x r ih =>
    rw [List.map_cons, List.sum_cons, countElem, ih]
    by_cases hx : a = x
    · subst hx
      simp
    · have hx2 : ¬ x = a := fun h => hx h.symm
      rw [if_neg hx, if_neg hx2]

/-- Summing `countPair ch a w` over a duplicate-free list containing every
edge target counts the edges with first component `a`. -/
theorem sum_countPair_fst {NL : List α} (hnd : NL.Nodup) :
    ∀ (ch : List (α × α)) (a : α), (∀ e ∈ ch, e.2 ∈ NL) →
      (NL.map fun w => countPair ch a w).sum
        = countElem (ch.map Prod.fst) a := by
  intro ch
  induction ch with
  | nil =>
    intro a _
    simp [countPair, countElem]
  | cons e rest ih =>
    obtain ⟨p, n⟩ := e
    intro a hmem
    have hsum : (NL.map fun w => countPair ((p, n) :: rest) a w).sum
        = (NL.map fun w => (if (p, n) = (a, w) then 1 else 0 : Int)).sum
          + (NL.map fun w => countPair rest a w).sum := by
      rw [← sum_map_add]
      rfl
    rw [hsum, ih a (fun e he => hmem e (List.mem_cons_of_mem _ he))]
    rw [show ((p, n) :: rest).map Prod.fst = p :: rest.map Prod.fst from rfl,
      countElem]
    by_cases hp : p = a
    · subst hp
      have hterm : (NL.map fun w => (if (p, n) = (p, w) then 1 else 0 : Int))
          = NL.map fun w => (if n = w then 1 else 0 : Int) := by
        refine List.map_congr_left ?_
        intro w _
        by_cases hw : n = w
        · subst hw
          simp
        · have : ¬ (p, n) = (p, w) := by
            intro h2
            exact hw (congrArg Prod.snd h2)
          rw [if_neg this, if_neg hw]
      rw [hterm, sum_indicator NL n, countElem_nodup hnd n,
        if_pos (hmem (p, n) (List.mem_cons_self _ _)), if_pos rfl]
    · have hterm : (NL.map fun w => (if (p, n) = (a, w) then 1 else 0 : Int))
          = NL.map fun _ => (0 : Int) := by
        refine List.map_congr_left ?_
        intro w _
        have : ¬ (p, n) = (a, w) := by
          intro h2
          exact hp (congrArg Prod.fst h2)
        rw [if_neg this]
      rw [hterm, if_neg hp]
      simp

/-- Summing `countPair ch u v` over a duplicate-free list containing every
edge origin counts the edges with second component `v`. -/
theorem sum_countPair_snd {NL : List α} (hnd : NL.Nodup) :
    ∀ (ch : List (α × α)) (v : α), (∀ e ∈ ch, e.1 ∈ NL) →
      (NL.map fun u => countPair ch u v).sum
        = countElem (ch.map Prod.snd) v := by
  intro ch
  induction ch with
  | nil =>
    intro v _
    simp [countPair, countElem]
  | cons e rest ih =>
    obtain ⟨p, n⟩ := e
    intro v hmem
    have hsum : (NL.map fun u => countPair ((p, n) :: rest) u v).sum
        = (NL.map fun u => (if (p, n) = (u, v) then 1 else 0 : Int)).sum
          + (NL.map fun u => countPair rest u v).sum := by
      rw [← sum_map_add]
      rfl
    rw [hsum, ih v (fun e he => hmem e (List.mem_cons_of_mem _ he))]
    rw [show ((p, n) :: rest).map Prod.snd = n :: rest.map Prod.snd from rfl,
      countElem]
    by_cases hn : n = v
    · subst hn
      have hterm : (NL.map fun u => (if (p, n) = (u, n) then 1 else 0 : Int))
          = NL.map fun u => (if p = u then 1 else 0 : Int) := by
        refine List.map_congr_left ?_
        intro u _
        by_cases hu : p = u
        · subst hu
          simp
        · have : ¬ (p, n) = (u, n) := by
            intro h2
            exact hu (congrArg Prod.fst h2)
          rw [if_neg this, if_neg hu]
      rw [hterm, sum_indicator NL p, countElem_nodup hnd p,
        if_pos (hmem (p, n) (List.mem_cons_self _ _)), if_pos rfl]
    · have hterm : (NL.map fun u => (if (p, n) = (u, v) then 1 else 0 : Int))
          = NL.map fun _ => (0 : Int) := by
        refine List.map_congr_left ?_
        intro u _
        have : ¬ (p, n) = (u, v) := by
          intro h2
          exact hn (congrArg Prod.snd h2)
        rw [if_neg this]
      rw [hterm, if_neg hn]
      simp

/-- The nodes of a parent chain, read from the sink side, are also the edge
targets followed by the source. -/
theorem parentPath_nodes_snd {parent : Dict α (Option α)} {s x : α}
    {ch : List (α × α)} (h : ParentPath parent s x ch) :
    pathNodes ch x = ch.map Prod.snd ++ [s] := by
  induction h with
  | nil => rfl
  | @cons x p ch hxs hpx hnot hpp ih =>
    rw [show pathNodes ((p, x) :: ch) x = x :: pathNodes ch p from rfl, ih]
    rfl

/-- On a parent chain each node appears as often among the edge origins as
among the edge targets, corrected at the two endpoints. -/
theorem parentPath_count_balance {parent : Dict α (Option α)} {s x : α}
    {ch : List (α × α)} (h : ParentPath parent s x ch) (v : α) :
    countElem (ch.map Prod.fst) v + (if x = v then 1 else 0)
      = countElem (ch.map Prod.snd) v + (if s = v then 1 else 0) := by
  have h1 : countElem (pathNodes ch x) v
      = (if x = v then 1 else 0) + countElem (ch.map Prod.fst) v := by
    rw [show pathNodes ch x = x :: ch.map Prod.fst from rfl, countElem]
  have h2 : countElem (pathNodes ch x) v
      = countElem (ch.map Prod.snd) v + (if s = v then 1 else 0) := by
    rw [parentPath_nodes_snd h, countElem_append, countElem,
      show countElem ([] : List α) v = 0 from rfl]
    ring
  omega

/-- The source never occurs as an edge target of a parent chain. -/
theorem parentPath_snd_count_s {parent : Dict α (Option α)} {s x : α}
    {ch : List (α × α)} (h : ParentPath parent s x ch) :
    countElem (ch.map Prod.snd) s = 0 := by
  refine countElem_not_mem ?_
  intro hmem
  obtain ⟨e, he, he2⟩ := List.mem_map.mp hmem
  exact (parentPath_edges h e he).2 he2

/-- A parent chain into a node other than the source leaves the source
exactly once. -/
theorem parentPath_fst_count_s {parent : Dict α (Option α)} {s x : α}
    {ch : List (α × α)} (h : ParentPath parent s x ch) (hxs : x ≠ s) :
    countElem (ch.map Prod.fst) s = 1 := by
  have h1 := parentPath_count_balance h s
  have h2 := parentPath_snd_count_s h
  rw [h2, if_neg (fun h3 => hxs h3), if_pos rfl] at h1
  omega

/-! ### Sum splitting and antisymmetry -/

theorem sum_filter_split (L : List α) (R : α → Bool) (F : α → Int) :
    (L.map F).sum
      = ((L.filter R).map F).sum + ((L.filter fun x => ! R x).map F).sum := by
  induction L with
  | nil => rfl
  | cons x rest ih =>
    rcases hx : R x with _ | _
    · rw [List.map_cons, List.sum_cons,
        show (x :: rest).filter R = rest.filter R by simp [hx],
        show (x :: rest).filter (fun y => ! R y)
          = x :: rest.filter (fun y => ! R y) by simp [hx],
        List.map_cons, List.sum_cons, ih]
      ring
    · rw [List.map_cons, List.sum_cons,
        show (x :: rest).filter R = x :: rest.filter R by simp [hx],
        show (x :: rest).filter (fun y => ! R y)
          = rest.filter (fun y => ! R y) by simp [hx],
        List.map_cons, List.sum_cons, ih]
      ring

theorem antisym_double_sum_zero (f : α → α → Int)
    (hanti : ∀ u v, f u v = - f v u) :
    ∀ A : List α, (A.map fun u => (A.map fun v => f u v).sum).sum = 0 := by
  intro A
  induction A with
  | nil => rfl
  | cons x rest ih =>
    simp only [List.map_cons, List.sum_cons]
    have hx : f x x = 0 := by
      have := hanti x x
      omega
    have hsplit : (rest.map fun u => f u x + (rest.map fun v => f u v).sum).sum
        = (rest.map fun u => f u x).sum
          + (rest.map fun u => (rest.map fun v => f u v).sum).sum :=
      sum_map_add rest _ _
    rw [hsplit, ih, hx]
    have hcancel : (rest.map fun v => f x v).sum
        = - (rest.map fun u => f u x).sum := by
      have : (rest.map fun v => f x v).sum
          = (rest.map fun v => - f v x).sum :=
        sum_map_congr _ _ (fun v _ => hanti x v)
      rw [this, show (rest.map fun v => - f v x)
        = rest.map fun v => (-1) * f v x by
          refine List.map_congr_left ?_
          intro v _
          ring, sum_map_mul]
      ring
    rw [hcancel]
    ring

theorem sum_map_eq_single {L : List α} {a : α} (F : α → Int)
    (hnd : L.Nodup) (ha : a ∈ L) (hzero : ∀ x ∈ L, x ≠ a → F x = 0) :
    (L.map F).sum = F a := by
  have h := sum_single_diff F (fun _ => (0 : Int)) hnd ha hzero
  have hz : (L.map fun _ => (0 : Int)).sum = 0 := by simp
  rw [h, hz]
  ring

/-- Positive part identity: an integer is its positive part minus the
positive part of its negation. -/
theorem pos_part_sub (x : Int) : max x 0 - max (-x) 0 = x := by
  rcases le_total x 0 with h | h
  · rw [max_eq_right h, max_eq_left (by omega)]
    ring
  · rw [max_eq_left h, max_eq_right (by omega)]
    ring

/-- Net outflow is the negated net inflow for an antisymmetric flow map. -/
theorem netOut_eq_neg_netInto (f : Graph α) (L : List α) (v : α)
    (hanti : ∀ u w, edgeVal f u w = - edgeVal f w u) :
    netOut f L v = - netInto f L v := by
  unfold netOut netInto
  rw [show (L.map fun w => edgeVal f v w)
      = L.map fun w => (-1) * edgeVal f w v by
    refine List.map_congr_left ?_
    intro w _
    rw [hanti v w]
    ring, sum_map_mul]
  ring

/-! ### Positive outgoing capacity as a sum over the source row -/

theorem foldl_add_max (l : List (α × Int)) :
    ∀ a : Int, l.foldl (fun acc vc => acc + max vc.2 0) a
      = a + (l.map fun vc => max vc.2 0).sum := by
  induction l with
  | nil =>
    intro a
    simp
  | cons vc rest ih =>
    intro a
    rw [List.foldl_cons, ih, List.map_cons, List.sum_cons]
    ring

theorem posOutCap_eq_sum (d : Graph α) (x : α)
    (hnd : (dkeys ((dget? d x).getD [])).Nodup) :
    posOutCap d x
      = ((dkeys ((dget? d x).getD [])).map
          fun w => max (edgeVal d x w) 0).sum := by
  unfold posOutCap
  rw [foldl_add_max, zero_add]
  unfold dkeys
  rw [List.map_map]
  refine sum_map_congr _ _ ?_
  intro vc hvc
  have hval : dget? ((dget? d x).getD []) vc.1 = some vc.2 :=
    mem_dget?_of_nodup hnd hvc
  show max vc.2 0 = max (edgeVal d x vc.1) 0
  unfold edgeVal
  rw [hval]
  rfl

theorem posOutCap_nonneg (d : Graph α) (x : α) : 0 ≤ posOutCap d x := by
  unfold posOutCap
  rw [foldl_add_max, zero_add]
  refine List.sum_nonneg ?_
  intro y hy
  obtain ⟨vc, _, hvc⟩ := List.mem_map.mp hy
  rw [← hvc]
  exact le_max_right _ _

theorem sum_map_filter_ne (L : List α) (F : α → Int) :
    (L.map F).sum = ((L.filter fun x => decide (F x ≠ 0)).map F).sum := by
  induction L with
  | nil => rfl
  | cons x rest ih =>
    by_cases hx : F x = 0
    · rw [show (x :: rest).filter (fun y => decide (F y ≠ 0))
          = rest.filter (fun y => decide (F y ≠ 0)) by simp [hx],
        List.map_cons, List.sum_cons, hx, ih]
      ring
    · rw [show (x :: rest).filter (fun y => decide (F y ≠ 0))
          = x :: rest.filter (fun y => decide (F y ≠ 0)) by simp [hx],
        List.map_cons, List.sum_cons, List.map_cons, List.sum_cons, ih]

/-- Building the residual graph adds only zero-capacity entries to the
source's row: the stock of positive outgoing capacity is unchanged. -/
theorem posOutCap_buildResidual {g : Graph α} (hwf : DictWF g) (x : α) :
    posOutCap (buildResidual g) x = posOutCap g x := by
  have hrwf := dictWF_buildResidual hwf
  have hndG : (dkeys ((dget? g x).getD [])).Nodup := by
    rcases h : dget? g x with _ | adj
    · simp
    · exact hwf.2 (x, adj) (dget?_mem h)
  have hndR : (dkeys ((dget? (buildResidual g) x).getD [])).Nodup := by
    rcases h : dget? (buildResidual g) x with _ | adj
    · simp
    · exact hrwf.2 (x, adj) (dget?_mem h)
  rw [posOutCap_eq_sum _ _ hndG, posOutCap_eq_sum _ _ hndR]
  have hcongr : ((dkeys ((dget? (buildResidual g) x).getD [])).map
        fun w => max (edgeVal (buildResidual g) x w) 0).sum
      = ((dkeys ((dget? (buildResidual g) x).getD [])).map
        fun w => max (edgeVal g x w) 0).sum := by
    refine sum_map_congr _ _ ?_
    intro w _
    rw [edgeVal_buildResidual]
  rw [hcongr]
  rw [sum_map_filter_ne (dkeys ((dget? (buildResidual g) x).getD []))
      fun w => max (edgeVal g x w) 0,
    sum_map_filter_ne (dkeys ((dget? g x).getD []))
      fun w => max (edgeVal g x w) 0]
  have hiff : ∀ w,
      (w ∈ (dkeys ((dget? (buildResidual g) x).getD [])).filter
        fun w => decide (max (edgeVal g x w) 0 ≠ 0))
      ↔ (w ∈ (dkeys ((dget? g x).getD [])).filter
        fun w => decide (max (edgeVal g x w) 0 ≠ 0)) := by
    intro w
    rw [List.mem_filter, List.mem_filter]
    constructor
    · rintro ⟨_, h2⟩
      have hpos : 0 < edgeVal g x w := by
        have := decide_eq_true_eq.mp h2
        omega
      have hkey : w ∈ dkeys ((dget? g x).getD []) := by
        rw [← dget?_isSome_iff ((dget? g x).getD []) w]
        unfold edgeVal at hpos
        rcases hg : dget? ((dget? g x).getD []) w with _ | c
        · rw [hg] at hpos
          exact absurd hpos (by simp)
        · rfl
      exact ⟨hkey, h2⟩
    · rintro ⟨h1, h2⟩
      have hpos : 0 < edgeVal g x w := by
        have := decide_eq_true_eq.mp h2
        omega
      have hE : hasEdge g x w = true := by
        unfold hasEdge
        rw [← dget?_isSome_iff ((dget? g x).getD []) w] at h1
        exact h1
      have hER : hasEdge (buildResidual g) x w = true := by
        rw [hasEdge_buildResidual hwf.1, hE, Bool.true_or]
      have hkey : w ∈ dkeys ((dget? (buildResidual g) x).getD []) := by
        rw [← dget?_isSome_iff ((dget? (buildResidual g) x).getD []) w]
        exact hER
      exact ⟨hkey, h2⟩
  have hperm : ((dkeys ((dget? (buildResidual g) x).getD [])).filter
        fun w => decide (max (edgeVal g x w) 0 ≠ 0)).Perm
      ((dkeys ((dget? g x).getD [])).filter
        fun w => decide (max (edgeVal g x w) 0 ≠ 0)) := by
    rw [List.perm_ext_iff_of_nodup (hndR.filter _) (hndG.filter _)]
    exact hiff
  exact (hperm.map fun w => max (edgeVal g x w) 0).sum_eq

/-! ### Entering the augmenting loop -/

theorem hasEdge_of_edgeVal_ne_zero {d : Graph α} {u v : α}
    (h : edgeVal d u v ≠ 0) : hasEdge d u v = true := by
  unfold hasEdge
  unfold edgeVal at h
  rcases hg : dget? ((dget? d u).getD []) v with _ | c
  · rw [hg] at h
    exact absurd rfl h
  · rfl

/-- The residual construction is symmetric at the level of entries: every
edge gets a reverse entry. -/
theorem hasEdge_buildResidual_symm {g : Graph α} (hnd : (dkeys g).Nodup)
    (x y : α) :
    hasEdge (buildResidual g) x y = hasEdge (buildResidual g) y x := by
  rw [hasEdge_buildResidual hnd, hasEdge_buildResidual hnd, Bool.or_comm]

/-- The invariant of the augmenting loop holds on entry: the residual is the
freshly built residual graph and the flow map is empty. -/
theorem ekInv_init {g : Graph α} (s t : α) (hwf : DictWF g) :
    EKInv g s t (buildResidual g) [] := by
  refine ⟨?_, ?_, ?_, ?_, ?_, rfl, (dictWF_buildResidual hwf).2, ?_⟩
  · intro u v
    rw [edgeVal_buildResidual]
    show edgeVal g u v = edgeVal g u v - (0 : Int)
    ring
  · intro u v
    show (0 : Int) = - (0 : Int)
    ring
  · intro v _ _
    unfold netInto
    rw [show ((dkeys (buildResidual g)).map fun u => edgeVal [] u v)
        = (dkeys (buildResidual g)).map fun _ => (0 : Int) from
      List.map_congr_left (fun u _ => rfl)]
    simp
  · intro u v h
    exact absurd rfl h
  · intro u v
    rfl
  · intro hnn u v
    rw [edgeVal_buildResidual]
    exact hnn u v

/-- With equal source and sink, every BFS finds the trivial augmenting path
and the loop spins forever: `parent[source] = source` stops the BFS at once,
the recovered path is empty, and nothing changes between iterations. -/
theorem ekLoop_self_fuelOut {residual : Graph α} {s : α}
    (hinner : ∀ uadj ∈ residual, (dkeys uadj.2).Nodup)
    (hclosed : ∀ u v, hasEdge residual u v = true → v ∈ dkeys residual)
    (hknd : (dkeys residual).Nodup)
    (hs : s ∈ dkeys residual) :
    ∀ fuel flow mf, ekLoop s s fuel residual flow mf = .fuelOut := by
  intro fuel
  induction fuel with
  | zero =>
    intro flow mf
    rfl
  | succ f ih =>
    intro flow mf
    obtain ⟨parent, hbfs, hinv, _⟩ := bfs_spec hinner hclosed hknd hs hs
    rw [ekLoop, hbfs]
    dsimp only
    rw [hinv.src]
    dsimp only
    rw [show walkChain parent s (parent.length + 1) s = .ok [] by
      rw [walkChain, if_pos rfl]]
    dsimp only
    rw [show pathMin residual [] none = some none from rfl]
    exact ih flow none

/-! ### Effect of one augmentation on flow sums and the capacity stock -/

theorem netOut_delta {flow flow' : Graph α} {b : Int} {ch : List (α × α)}
    {NL : List α} (hnd : NL.Nodup)
    (hch : ∀ e ∈ ch, e.1 ∈ NL ∧ e.2 ∈ NL)
    (hf : ∀ u v, edgeVal flow' u v
      = edgeVal flow u v + b * countPair ch u v - b * countPair ch v u)
    (v : α) :
    netOut flow' NL v = netOut flow NL v
      + b * countElem (ch.map Prod.fst) v
      - b * countElem (ch.map Prod.snd) v := by
  unfold netOut
  rw [show (NL.map fun w => edgeVal flow' v w)
      = NL.map fun w => (edgeVal flow v w + b * countPair ch v w)
          - b * countPair ch w v from
    List.map_congr_left fun w _ => hf v w]
  rw [sum_map_sub NL (fun w => edgeVal flow v w + b * countPair ch v w)
    (fun w => b * countPair ch w v)]
  rw [sum_map_add NL (fun w => edgeVal flow v w)
    (fun w => b * countPair ch v w)]
  rw [sum_map_mul NL b (fun w => countPair ch v w),
    sum_map_mul NL b (fun w => countPair ch w v)]
  rw [sum_countPair_fst hnd ch v (fun e he => (hch e he).2),
    sum_countPair_snd hnd ch v (fun e he => (hch e he).1)]

theorem netInto_delta {flow flow' : Graph α} {b : Int} {ch : List (α × α)}
    {NL : List α} (hnd : NL.Nodup)
    (hch : ∀ e ∈ ch, e.1 ∈ NL ∧ e.2 ∈ NL)
    (hf : ∀ u v, edgeVal flow' u v
      = edgeVal flow u v + b * countPair ch u v - b * countPair ch v u)
    (v : α) :
    netInto flow' NL v = netInto flow NL v
      + b * countElem (ch.map Prod.snd) v
      - b * countElem (ch.map Prod.fst) v := by
  unfold netInto
  rw [show (NL.map fun u => edgeVal flow' u v)
      = NL.map fun u => (edgeVal flow u v + b * countPair ch u v)
          - b * countPair ch v u from
    List.map_congr_left fun u _ => hf u v]
  rw [sum_map_sub NL (fun u => edgeVal flow u v + b * countPair ch u v)
    (fun u => b * countPair ch v u)]
  rw [sum_map_add NL (fun u => edgeVal flow u v)
    (fun u => b * countPair ch u v)]
  rw [sum_map_mul NL b (fun u => countPair ch u v),
    sum_map_mul NL b (fun u => countPair ch v u)]
  rw [sum_countPair_snd hnd ch v (fun e he => (hch e he).1),
    sum_countPair_fst hnd ch v (fun e he => (hch e he).2)]

/-- One augmentation removes exactly the bottleneck from the stock of
positive residual capacity leaving the source. -/
theorem posOutCap_augment {residual res2 : Graph α} {b : Int}
    {ch : List (α × α)} {s w1 : α}
    (hinner : ∀ uadj ∈ residual, (dkeys uadj.2).Nodup)
    (hr : ∀ u v, edgeVal res2 u v
      = edgeVal residual u v - b * countPair ch u v + b * countPair ch v u)
    (hrows : ∀ x, dkeys ((dget? res2 x).getD [])
      = dkeys ((dget? residual x).getD []))
    (hcnt : ∀ w, countPair ch s w = if w = w1 then 1 else 0)
    (hsnd : countElem (ch.map Prod.snd) s = 0)
    (hble : b ≤ edgeVal residual s w1)
    (hbpos : 0 < b) :
    posOutCap res2 s = posOutCap residual s - b := by
  have hndR : (dkeys ((dget? residual s).getD [])).Nodup := by
    rcases h : dget? residual s with _ | adj
    · simp
    · exact hinner (s, adj) (dget?_mem h)
  have hndR2 : (dkeys ((dget? res2 s).getD [])).Nodup := by
    rw [hrows s]
    exact hndR
  rw [posOutCap_eq_sum _ _ hndR2, posOutCap_eq_sum _ _ hndR, hrows s]
  have hw1 : w1 ∈ dkeys ((dget? residual s).getD []) := by
    rw [← dget?_isSome_iff ((dget? residual s).getD []) w1]
    exact hasEdge_of_edgeVal_ne_zero (by omega)
  have hoff : ∀ w ∈ dkeys ((dget? residual s).getD []), w ≠ w1 →
      max (edgeVal res2 s w) 0 = max (edgeVal residual s w) 0 := by
    intro w _ hw
    rw [hr s w, hcnt w, if_neg hw, countPair_zero_of_snd hsnd w]
    ring_nf
  have hsingle := sum_single_diff (fun w => max (edgeVal res2 s w) 0)
    (fun w => max (edgeVal residual s w) 0) hndR hw1 hoff
  rw [hsingle]
  dsimp only
  have hv2 : edgeVal res2 s w1 = edgeVal residual s w1 - b := by
    rw [hr s w1, hcnt w1, if_pos rfl, countPair_zero_of_snd hsnd w1]
    ring
  have hmax2 : max (edgeVal res2 s w1) 0 = edgeVal residual s w1 - b := by
    rw [hv2]
    exact max_eq_left (by omega)
  have hmax1 : max (edgeVal residual s w1) 0 = edgeVal residual s w1 :=
    max_eq_left (by omega)
  rw [hmax2, hmax1]
  ring

/-! ### Master specification of the augmenting loop -/

/-- From any state satisfying the invariant, with the accumulator tracking
the net outflow of the source and fuel exceeding the remaining positive
capacity out of the source, the loop returns normally; the final state still
satisfies the invariant, the returned value is the net outflow of the source
under the returned flow, and the final BFS certifies an undiscovered sink
with the discovered set closed under positive residual edges. -/
theorem ekLoop_spec {g : Graph α} {s t : α} (hwf : DictWF g) (hst : s ≠ t)
    (hs : s ∈ dkeys (buildResidual g)) (ht : t ∈ dkeys (buildResidual g)) :
    ∀ fuel residual flow mfInt,
      EKInv g s t residual flow →
      mfInt = netOut flow (dkeys (buildResidual g)) s →
      (posOutCap residual s).toNat < fuel →
      ∃ residual' flow' parent,
        ekLoop s t fuel residual flow (some mfInt)
          = .ok (some (netOut flow' (dkeys (buildResidual g)) s)) flow'
        ∧ EKInv g s t residual' flow'
        ∧ bfs residual' s t = .ok parent
        ∧ BfsInv residual' s parent
        ∧ dget? parent t = some none
        ∧ (∀ x y, dget? parent x = some (some y) →
            ∀ v, 0 < edgeVal residual' x v →
              ∃ z, dget? parent v = some (some z)) := by
  intro fuel
  induction fuel with
  | zero =>
    intro residual flow mfInt _ _ hfuel
    exact absurd hfuel (by omega)
  | succ f ih =>
    intro residual flow mfInt inv hval hfuel
    have hrwf := dictWF_buildResidual hwf
    have hrnd : (dkeys residual).Nodup := by
      rw [inv.keys]
      exact hrwf.1
    have hclosed : ∀ u v, hasEdge residual u v = true →
        v ∈ dkeys residual := by
      intro u v h
      rw [inv.edges] at h
      rw [inv.keys]
      exact buildResidual_closed hwf u v h
    have hs' : s ∈ dkeys residual := by
      rw [inv.keys]
      exact hs
    have ht' : t ∈ dkeys residual := by
      rw [inv.keys]
      exact ht
    obtain ⟨parent, hbfs, hinvB, hclose⟩ :=
      bfs_spec inv.innerNodup hclosed hrnd hs' ht'
    rcases hpt : dget? parent t with _ | w
    · exfalso
      have hsome := (hinvB.keys t).mpr (Or.inl ht')
      rw [hpt] at hsome
      exact absurd hsome (by simp)
    · rcases w with _ | y
      · refine ⟨residual, flow, parent, ?_, inv, hbfs, hinvB, hpt,
          hclose hpt⟩
        rw [ekLoop_exit f flow (some mfInt) hbfs hpt, hval]
      · obtain ⟨ch, hch⟩ := hinvB.ground t y hpt
        have hts : t ≠ s := fun h => hst h.symm
        have hwalk : walkChain parent s (parent.length + 1) t = .ok ch :=
          parentPath_walkChain hch _ (parentPath_length hch hinvB.src)
        have hposE : ∀ e ∈ ch, 0 < edgeVal residual e.1 e.2 := by
          intro e he
          obtain ⟨hpe, hne⟩ := parentPath_edges hch e he
          exact hinvB.edge e.2 e.1 hne hpe
        have hedgesF : ∀ e ∈ ch, hasEdge residual e.1 e.2 = true := by
          intro e he
          refine hasEdge_of_edgeVal_ne_zero ?_
          have := hposE e he
          omega
        have hedgesB : ∀ e ∈ ch, hasEdge residual e.2 e.1 = true := by
          intro e he
          rw [inv.edges, hasEdge_buildResidual_symm hwf.1, ← inv.edges]
          exact hedgesF e he
        have hchNL : ∀ e ∈ ch, e.1 ∈ dkeys (buildResidual g)
            ∧ e.2 ∈ dkeys (buildResidual g) := by
          intro e he
          constructor
          · have h1 : e.1 ∈ pathNodes ch t := by
              rw [show pathNodes ch t = t :: ch.map Prod.fst from rfl]
              exact List.mem_cons_of_mem _ (List.mem_map_of_mem Prod.fst he)
            obtain ⟨q, hq⟩ := parentPath_entry hch hinvB.src e.1 h1
            have h2 : (dget? parent e.1).isSome = true := by
              rw [hq]
              rfl
            rcases (hinvB.keys e.1).mp h2 with h3 | h3
            · rw [← inv.keys]
              exact h3
            · rw [h3, ← inv.keys]
              exact hs'
          · obtain ⟨hpe, hne⟩ := parentPath_edges hch e he
            have h2 : (dget? parent e.2).isSome = true := by
              rw [hpe]
              rfl
            rcases (hinvB.keys e.2).mp h2 with h3 | h3
            · rw [← inv.keys]
              exact h3
            · exact absurd h3 hne
        have hchne : ch ≠ [] := by
          intro h
          subst h
          cases hch
          exact hst rfl
        obtain ⟨mv, hmin, hmnone, hmsome⟩ := pathMin_spec ch hedgesF none
        rcases mv with _ | b
        · exact absurd (hmnone rfl).1 hchne
        obtain ⟨hbound, -, hposc⟩ := hmsome b rfl
        have hbpos : 0 < b :=
          hposc hposE (fun a ha => Option.noConfusion ha)
        obtain ⟨res2, flow2, haug, haspec⟩ :=
          augment_spec b ch residual flow
            (fun e he => ⟨hedgesF e he, hedgesB e he⟩)
        have hfst1 : countElem (ch.map Prod.fst) s = 1 :=
          parentPath_fst_count_s hch hts
        have hsnd0 : countElem (ch.map Prod.snd) s = 0 :=
          parentPath_snd_count_s hch
        obtain ⟨w1, hw1mem, hcnt⟩ := countPair_fst_unique hfst1
        have hble : b ≤ edgeVal residual s w1 := hbound (s, w1) hw1mem
        have hdec : posOutCap res2 s = posOutCap residual s - b :=
          posOutCap_augment inv.innerNodup haspec.r_val haspec.r_rowKeys
            hcnt hsnd0 hble hbpos
        have hfuel2 : (posOutCap res2 s).toNat < f := by
          have e1 : ((posOutCap res2 s).toNat : Int) = posOutCap res2 s :=
            Int.toNat_of_nonneg (posOutCap_nonneg _ _)
          have e2 : ((posOutCap residual s).toNat : Int)
              = posOutCap residual s :=
            Int.toNat_of_nonneg (posOutCap_nonneg _ _)
          omega
        have inv2 : EKInv g s t res2 flow2 := by
          refine ⟨?_, ?_, ?_, ?_, ?_, ?_, ?_, ?_⟩
          · intro u v
            rw [haspec.r_val u v, inv.resCap u v, haspec.f_val u v]
            ring
          · intro u v
            rw [haspec.f_val u v, haspec.f_val v u, inv.antisym u v]
            ring
          · intro v hvs hvt
            rw [netInto_delta hrwf.1 hchNL haspec.f_val v,
              inv.conserve v hvs hvt]
            have hbal := parentPath_count_balance hch v
            rw [if_neg (fun h => hvt h.symm), if_neg (fun h => hvs h.symm)]
              at hbal
            rw [show countElem (ch.map Prod.snd) v
              = countElem (ch.map Prod.fst) v by omega]
            ring
          · intro u v h
            by_cases hflow : edgeVal flow u v = 0
            · rw [haspec.f_val u v, hflow] at h
              have hcase : countPair ch u v ≠ 0 ∨ countPair ch v u ≠ 0 := by
                by_contra hc
                push_neg at hc
                rw [hc.1, hc.2] at h
                exact h (by ring)
              rcases hcase with h1 | h1
              · have hmem := countPair_mem_of_ne_zero h1
                exact ⟨(hchNL (u, v) hmem).1, (hchNL (u, v) hmem).2⟩
              · have hmem := countPair_mem_of_ne_zero h1
                exact ⟨(hchNL (v, u) hmem).2, (hchNL (v, u) hmem).1⟩
            · exact inv.support u v hflow
          · intro u v
            rw [rowKeys_hasEdge haspec.r_rowKeys u v, inv.edges u v]
          · rw [haspec.r_keys, inv.keys]
          · exact haspec.r_innerNodup inv.innerNodup
          · intro hnn u v
            rw [haspec.r_val u v]
            have hfstnd : (ch.map Prod.fst).Nodup := by
              have hnd2 := parentPath_nodup hch
              rw [show pathNodes ch t = t :: ch.map Prod.fst from rfl,
                List.nodup_cons] at hnd2
              exact hnd2.2
            have hcu1 : countPair ch u v ≤ 1 := by
              have h1 := countPair_le_fst ch u v
              rw [countElem_nodup hfstnd u] at h1
              by_cases hv : u ∈ ch.map Prod.fst
              · rw [if_pos hv] at h1
                exact h1
              · rw [if_neg hv] at h1
                have := countPair_nonneg ch u v
                omega
            have hbase : 0 ≤ edgeVal residual u v := inv.nonneg hnn u v
            have hcv0 : 0 ≤ b * countPair ch v u :=
              mul_nonneg (le_of_lt hbpos) (countPair_nonneg ch v u)
            by_cases hpos : 0 < countPair ch u v
            · have hone : countPair ch u v = 1 := by
                have := countPair_nonneg ch u v
                omega
              have hmem : (u, v) ∈ ch :=
                countPair_mem_of_ne_zero (by omega)
              have hble2 : b ≤ edgeVal residual u v := hbound (u, v) hmem
              rw [hone]
              linarith
            · have hzero : countPair ch u v = 0 := by
                have := countPair_nonneg ch u v
                omega
              rw [hzero]
              linarith
        have hval2 : mfInt + b
            = netOut flow2 (dkeys (buildResidual g)) s := by
          rw [netOut_delta hrwf.1 hchNL haspec.f_val s, hfst1, hsnd0,
            ← hval]
          ring
        have hstep : ekLoop s t (f + 1) residual flow (some mfInt)
            = ekLoop s t f res2 flow2 (some (mfInt + b)) := by
          rw [ekLoop, hbfs]
          dsimp only
          rw [hpt]
          dsimp only
          rw [hwalk]
          dsimp only
          rw [hmin]
          dsimp only
          rw [haug]
          rfl
        obtain ⟨residual', flow', parent', hok, inv', hbfs', hinvB', hpt',
          hclose'⟩ := ih res2 flow2 (mfInt + b) inv2 hval2 hfuel2
        exact ⟨residual', flow', parent', hstep.trans hok, inv', hbfs',
          hinvB', hpt', hclose'⟩

/-! ### From the loop specification to the returned results -/

theorem netOut_nil (L : List α) (v : α) :
    netOut ([] : Graph α) L v = 0 := by
  unfold netOut
  rw [show (L.map fun w => edgeVal ([] : Graph α) v w)
      = L.map fun _ => (0 : Int) from List.map_congr_left fun w _ => rfl]
  simp

/-- `edmonds_karp` on a well-formed graph with distinct source and sink in
its node set returns normally; the returned flow satisfies the loop
invariant, the returned value is the net outflow of the source, and the
final BFS certifies that no augmenting path remains. -/
theorem edmonds_karp_spec {g : Graph α} {s t : α} (hwf : DictWF g)
    (hst : s ≠ t) (hs : isNode g s = true) (ht : isNode g t = true) :
    ∃ residual flow parent,
      edmonds_karp g s t
        = .ok (some (netOut flow (dkeys (buildResidual g)) s)) flow
      ∧ EKInv g s t residual flow
      ∧ bfs residual s t = .ok parent
      ∧ BfsInv residual s parent
      ∧ dget? parent t = some none
      ∧ (∀ x y, dget? parent x = some (some y) →
          ∀ v, 0 < edgeVal residual x v →
            ∃ z, dget? parent v = some (some z)) := by
  have hsk : s ∈ dkeys (buildResidual g) :=
    (mem_dkeys_buildResidual hwf.1 s).mpr hs
  have htk : t ∈ dkeys (buildResidual g) :=
    (mem_dkeys_buildResidual hwf.1 t).mpr ht
  have hfuel : (posOutCap (buildResidual g) s).toNat < ekFuel g s := by
    rw [posOutCap_buildResidual hwf s]
    unfold ekFuel
    omega
  obtain ⟨residual, flow, parent, hok, hinv, hbfs, hinvB, hpt, hclose⟩ :=
    ekLoop_spec hwf hst hsk htk (ekFuel g s) (buildResidual g) [] 0
      (ekInv_init s t hwf) (netOut_nil _ s).symm hfuel
  exact ⟨residual, flow, parent, hok, hinv, hbfs, hinvB, hpt, hclose⟩

/-- A graph all of whose recorded capacities are non-negative has
non-negative capacity on every ordered pair. -/
theorem nonnegCap_of_entries {g : Graph α}
    (h : ∀ ur ∈ g, ∀ vc ∈ ur.2, 0 ≤ vc.2) : NonnegCap g := by
  intro u v
  unfold edgeVal
  rcases hu : dget? g u with _ | adj
  · exact le_refl 0
  · dsimp only [Option.getD_some]
    rcases hv : dget? adj v with _ | c
    · exact le_refl 0
    · dsimp only [Option.getD_some]
      exact h (u, adj) (dget?_mem hu) (v, c) (dget?_mem hv)

/-- Net inflow splits into positive inflow minus positive outflow for an
antisymmetric flow map. -/
theorem netInto_posparts (f : Graph α) (L : List α) (v : α)
    (hanti : ∀ u w, edgeVal f u w = - edgeVal f w u) :
    netInto f L v = inflowSum f L v - outflowSum f L v := by
  unfold netInto inflowSum outflowSum
  rw [show (L.map fun u => edgeVal f u v)
      = L.map fun u => max (edgeVal f u v) 0 - max (edgeVal f v u) 0 from
    List.map_congr_left fun u _ => by
      have h1 := pos_part_sub (edgeVal f u v)
      have h2 : edgeVal f v u = - edgeVal f u v := hanti v u
      rw [h2]
      omega]
  rw [sum_map_sub L (fun u => max (edgeVal f u v) 0)
    (fun u => max (edgeVal f v u) 0)]

theorem sum_map_le {L : List α} (F G : α → Int)
    (h : ∀ x ∈ L, F x ≤ G x) : (L.map F).sum ≤ (L.map G).sum := by
  induction L with
  | nil => simp
  | cons x rest ih =>
    simp only [List.map_cons, List.sum_cons]
    have h1 := h x (List.mem_cons_self _ _)
    have h2 := ih (fun y hy => h y (List.mem_cons_of_mem _ hy))
    omega

/-- The value of a conserved antisymmetric flow is the net flow across any
cut separating the source from the sink. -/
theorem flow_value_cut {flow : Graph α} {NL : List α} {s t : α}
    (hnd : NL.Nodup) (hsNL : s ∈ NL)
    (hanti : ∀ u w, edgeVal flow u w = - edgeVal flow w u)
    (hcons : ∀ v, v ≠ s → v ≠ t → netInto flow NL v = 0)
    (R : α → Bool) (hRs : R s = true) (hRt : R t = false) :
    netOut flow NL s
      = ((NL.filter R).map fun u =>
          ((NL.filter fun v => ! R v).map fun v => edgeVal flow u v).sum).sum
      := by
  have hAnd : (NL.filter R).Nodup := hnd.filter R
  have hsA : s ∈ NL.filter R := List.mem_filter.mpr ⟨hsNL, hRs⟩
  have hzero : ∀ u ∈ NL.filter R, u ≠ s → netOut flow NL u = 0 := by
    intro u hu hus
    have hRu : R u = true := (List.mem_filter.mp hu).2
    have hut : u ≠ t := by
      intro h
      rw [h, hRt] at hRu
      exact Bool.noConfusion hRu
    rw [netOut_eq_neg_netInto flow NL u hanti, hcons u hus hut]
    ring
  have hsingle : ((NL.filter R).map fun u => netOut flow NL u).sum
      = netOut flow NL s :=
    sum_map_eq_single (fun u => netOut flow NL u) hAnd hsA hzero
  rw [← hsingle]
  have hsplit : ∀ u, netOut flow NL u
      = ((NL.filter R).map fun v => edgeVal flow u v).sum
        + ((NL.filter fun v => ! R v).map fun v => edgeVal flow u v).sum := by
    intro u
    unfold netOut
    exact sum_filter_split NL R (fun v => edgeVal flow u v)
  rw [show ((NL.filter R).map fun u => netOut flow NL u)
      = (NL.filter R).map fun u =>
          ((NL.filter R).map fun v => edgeVal flow u v).sum
          + ((NL.filter fun v => ! R v).map
              fun v => edgeVal flow u v).sum from
    List.map_congr_left fun u _ => hsplit u]
  rw [sum_map_add (NL.filter R)
    (fun u => ((NL.filter R).map fun v => edgeVal flow u v).sum)
    (fun u => ((NL.filter fun v => ! R v).map
      fun v => edgeVal flow u v).sum)]
  rw [antisym_double_sum_zero (fun u v => edgeVal flow u v) hanti
    (NL.filter R)]
  ring

/-! ### Claim theorems (second batch) -/

/-- With source equal to sink (and in the node set), the augmenting loop
never terminates: every BFS rediscovers the source at once and nothing
changes between iterations. -/
theorem edmonds_karp_self_fuelOut {g : Graph α} {s : α} (hwf : DictWF g)
    (hs : isNode g s = true) :
    edmonds_karp g s s = EKRes.fuelOut := by
  have hrwf := dictWF_buildResidual hwf
  exact ekLoop_self_fuelOut hrwf.2 (buildResidual_closed hwf) hrwf.1
    ((mem_dkeys_buildResidual hwf.1 s).mpr hs) (ekFuel g s) [] (some 0)

/-- C1: on every well-formed capacity graph with non-negative capacities
and source and sink in its node set, any `max_flow` value actually returned
by `edmonds_karp` equals the capacity of a minimum cut separating the
source from the sink: the discovered set of the final BFS gives a cut
achieving the value, and no cut separating them has smaller capacity. -/
theorem C1_max_flow_min_cut (g : Graph α) (s t : α) (hwf : DictWF g)
    (hnn : NonnegCap g) (hs : isNode g s = true)
    (ht : isNode g t = true) :
    ∀ mfo flow, edmonds_karp g s t = EKRes.ok mfo flow →
      ∃ mf R, mfo = some mf
        ∧ R s = true ∧ R t = false
        ∧ mf = cutCapacity g (dkeys (buildResidual g)) R
        ∧ ∀ R2 : α → Bool, R2 s = true → R2 t = false →
            mf ≤ cutCapacity g (dkeys (buildResidual g)) R2 := by
  intro mfo flow0 hok0
  by_cases hst : s = t
  · exfalso
    subst hst
    rw [edmonds_karp_self_fuelOut hwf hs] at hok0
    exact EKRes.noConfusion hok0
  obtain ⟨residual, flow, parent, hok, inv, hbfs, hinvB, hpt, hclose⟩ :=
    edmonds_karp_spec hwf hst hs ht
  have hpin : mfo = some (netOut flow (dkeys (buildResidual g)) s)
      ∧ flow0 = flow := by
    rw [hok0] at hok
    exact ⟨(EKRes.ok.inj hok).1, (EKRes.ok.inj hok).2⟩
  have hrwf := dictWF_buildResidual hwf
  have hsNL : s ∈ dkeys (buildResidual g) :=
    (mem_dkeys_buildResidual hwf.1 s).mpr hs
  have hle : ∀ u v, edgeVal flow u v ≤ edgeVal g u v := by
    intro u v
    have h1 := inv.resCap u v
    have h2 := inv.nonneg hnn u v
    omega
  have hRs : ((dget? parent s).getD none).isSome = true := by
    rw [hinvB.src]
    rfl
  have hRt : ((dget? parent t).getD none).isSome = false := by
    rw [hpt]
    rfl
  have hdisc : ∀ u, ((dget? parent u).getD none).isSome = true →
      ∃ y, dget? parent u = some (some y) := by
    intro u hu
    rcases hq : dget? parent u with _ | w
    · rw [hq] at hu
      exact Bool.noConfusion hu
    · rcases w with _ | y
      · rw [hq] at hu
        exact Bool.noConfusion hu
      · exact ⟨y, rfl⟩
  have hzero : ∀ u ∈ (dkeys (buildResidual g)).filter
        (fun x => ((dget? parent x).getD none).isSome),
      ∀ v ∈ (dkeys (buildResidual g)).filter
        (fun x => ! ((dget? parent x).getD none).isSome),
      edgeVal flow u v = edgeVal g u v := by
    intro u hu v hv
    obtain ⟨y, hy⟩ := hdisc u (List.mem_filter.mp hu).2
    have hvR : ((dget? parent v).getD none).isSome = false := by
      have hmem := (List.mem_filter.mp hv).2
      rcases hb : ((dget? parent v).getD none).isSome with _ | _
      · rfl
      · rw [hb] at hmem
        exact absurd hmem (by simp)
    have hresle : edgeVal residual u v ≤ 0 := by
      by_contra hc
      push_neg at hc
      obtain ⟨z, hz⟩ := hclose u y hy v hc
      rw [hz] at hvR
      exact Bool.noConfusion hvR
    have h1 := inv.resCap u v
    have h2 := inv.nonneg hnn u v
    omega
  refine ⟨netOut flow (dkeys (buildResidual g)) s,
    fun x => ((dget? parent x).getD none).isSome, hpin.1, hRs, hRt,
    ?_, ?_⟩
  · rw [flow_value_cut hrwf.1 hsNL inv.antisym inv.conserve
      (fun x => ((dget? parent x).getD none).isSome) hRs hRt]
    unfold cutCapacity
    refine sum_map_congr _ _ ?_
    intro u hu
    refine sum_map_congr _ _ ?_
    intro v hv
    exact hzero u hu v hv
  · intro R2 hR2s hR2t
    rw [flow_value_cut hrwf.1 hsNL inv.antisym inv.conserve R2 hR2s hR2t]
    unfold cutCapacity
    refine sum_map_le _ _ ?_
    intro u _
    refine sum_map_le _ _ ?_
    intro v _
    exact hle u v

/-- Well-formedness from the two decidable components. -/
theorem dictWF_of_entries {g : Graph α} (h1 : (dkeys g).Nodup)
    (h2 : ∀ uadj ∈ g, (dkeys uadj.2).Nodup) : DictWF g :=
  ⟨h1, h2⟩

/-- Witness for C1 on Scenario A: `S→A(10), S→B(5), A→T(10), B→T(5)` is
well formed with non-negative capacities, and the returned max flow equals
the minimum cut capacity. -/
theorem C1_witness :
    DictWF gScenarioA ∧ NonnegCap gScenarioA
    ∧ ∃ mf R, (some (15 : Int) : Option Int) = some mf
        ∧ R "S" = true ∧ R "T" = false
        ∧ mf = cutCapacity gScenarioA (dkeys (buildResidual gScenarioA)) R
        ∧ ∀ R2 : String → Bool, R2 "S" = true → R2 "T" = false →
            mf ≤ cutCapacity gScenarioA
              (dkeys (buildResidual gScenarioA)) R2 :=
  ⟨dictWF_of_entries (by decide) (by decide),
    nonnegCap_of_entries (by decide),
    C1_max_flow_min_cut gScenarioA "S" "T"
      (dictWF_of_entries (by decide) (by decide))
      (nonnegCap_of_entries (by decide)) (by decide) (by decide)
      (some 15)
      [("A", [("T", 10), ("S", -10)]), ("T", [("A", -10), ("B", -5)]),
       ("S", [("A", 10), ("B", 5)]), ("B", [("T", 5), ("S", -5)])]
      (by rfl)⟩

/-- C3: on every well-formed capacity graph with non-negative capacities
and source and sink in its node set, any flow map actually returned by
`edmonds_karp` conserves flow at every node other than the source and the
sink: total inflow equals total outflow. -/
theorem C3_flow_conservation (g : Graph α) (s t : α) (hwf : DictWF g)
    (hnn : NonnegCap g) (hs : isNode g s = true) (ht : isNode g t = true) :
    ∀ mfo flow, edmonds_karp g s t = EKRes.ok mfo flow →
      ∀ v, v ≠ s → v ≠ t →
        inflowSum flow (dkeys (buildResidual g)) v
          = outflowSum flow (dkeys (buildResidual g)) v := by
  intro mfo flow hok v hvs hvt
  by_cases hst : s = t
  · exfalso
    subst hst
    rw [edmonds_karp_self_fuelOut hwf hs] at hok
    exact EKRes.noConfusion hok
  · obtain ⟨residual, flow2, parent, hok2, inv, _, _, _, _⟩ :=
      edmonds_karp_spec hwf hst hs ht
    rw [hok] at hok2
    have hfeq : flow = flow2 := (EKRes.ok.inj hok2).2
    subst hfeq
    have hnet := inv.conserve v hvs hvt
    have hpp := netInto_posparts flow (dkeys (buildResidual g)) v
      inv.antisym
    omega

/-- Witness for C3 on Scenario A: the interior node `A` receives 10 units
and passes 10 units on. -/
theorem C3_witness :
    DictWF gScenarioA ∧ NonnegCap gScenarioA
    ∧ edmonds_karp gScenarioA "S" "T"
        = EKRes.ok (some 15)
            [("A", [("T", 10), ("S", -10)]), ("T", [("A", -10), ("B", -5)]),
             ("S", [("A", 10), ("B", 5)]), ("B", [("T", 5), ("S", -5)])]
    ∧ inflowSum
        [("A", [("T", 10), ("S", -10)]), ("T", [("A", -10), ("B", -5)]),
         ("S", [("A", 10), ("B", 5)]), ("B", [("T", 5), ("S", -5)])]
        (dkeys (buildResidual gScenarioA)) "A"
      = outflowSum
          [("A", [("T", 10), ("S", -10)]), ("T", [("A", -10), ("B", -5)]),
           ("S", [("A", 10), ("B", 5)]), ("B", [("T", 5), ("S", -5)])]
          (dkeys (buildResidual gScenarioA)) "A" :=
  ⟨dictWF_of_entries (by decide) (by decide),
    nonnegCap_of_entries (by decide), by rfl,
    C3_flow_conservation gScenarioA "S" "T"
      (dictWF_of_entries (by decide) (by decide))
      (nonnegCap_of_entries (by decide)) (by decide) (by decide)
      (some 15) _ (by rfl) "A" (by decide) (by decide)⟩

/-- C4 (amended): with non-negative capacities and distinct source and sink
in the node set, the returned flow map satisfies `flow(u,v) ≤ capacity(u,v)`
on every ordered pair (absent edges having capacity 0) and the antisymmetry
`flow(u,v) = -flow(v,u)`; the absolute-value bound of the original claim
fails on reverse pairs (see the counterexample). -/
theorem C4_amended_flow_le_capacity (g : Graph α) (s t : α)
    (hwf : DictWF g) (hnn : NonnegCap g) (hst : s ≠ t)
    (hs : isNode g s = true) (ht : isNode g t = true) :
    ∃ mf flow, edmonds_karp g s t = EKRes.ok (some mf) flow
      ∧ (∀ u v, edgeVal flow u v ≤ edgeVal g u v)
      ∧ (∀ u v, edgeVal flow u v = - edgeVal flow v u) := by
  obtain ⟨residual, flow, parent, hok, inv, _, _, _, _⟩ :=
    edmonds_karp_spec hwf hst hs ht
  refine ⟨_, flow, hok, ?_, inv.antisym⟩
  intro u v
  have h1 := inv.resCap u v
  have h2 := inv.nonneg hnn u v
  omega

/-- Witness for the amended C4 on the chain `S→A(5), A→T(5)`. -/
theorem C4_amended_witness :
    DictWF gChain ∧ NonnegCap gChain ∧ ("S" : String) ≠ "T"
    ∧ ∃ mf flow, edmonds_karp gChain "S" "T" = EKRes.ok (some mf) flow
      ∧ (∀ u v, edgeVal flow u v ≤ edgeVal gChain u v)
      ∧ (∀ u v, edgeVal flow u v = - edgeVal flow v u) :=
  ⟨dictWF_of_entries (by decide) (by decide),
    nonnegCap_of_entries (by decide), by decide,
    C4_amended_flow_le_capacity gChain "S" "T"
      (dictWF_of_entries (by decide) (by decide))
      (nonnegCap_of_entries (by decide)) (by decide) (by decide)
      (by decide)⟩

/-- C8 (amended): nothing is rejected — neither `build_logistics_graph` nor
`edmonds_karp` validates capacities.  For every well-formed graph with
distinct source and sink in its node set, including graphs with
negative-capacity edges, the algorithm runs to completion and returns a
result. -/
theorem C8_amended_runs_to_completion (g : Graph α) (s t : α)
    (hwf : DictWF g) (hst : s ≠ t) (hs : isNode g s = true)
    (ht : isNode g t = true) :
    ∃ mf flow, edmonds_karp g s t = EKRes.ok (some mf) flow := by
  obtain ⟨residual, flow, parent, hok, _, _, _, _, _⟩ :=
    edmonds_karp_spec hwf hst hs ht
  exact ⟨_, flow, hok⟩

/-- Witness for the amended C8 on the negative-capacity graph
`S→A(-1), S→B(1), B→T(1)`: the negative edge is accepted and the run
completes. -/
theorem C8_amended_witness :
    edgeVal gNegCap "S" "A" < 0
    ∧ ∃ mf flow, edmonds_karp gNegCap "S" "T" = EKRes.ok (some mf) flow :=
  ⟨by decide,
    C8_amended_runs_to_completion gNegCap "S" "T"
      (dictWF_of_entries (by decide) (by decide)) (by decide)
      (by decide) (by decide)⟩

/-- C9 (amended): on the reference logistics network the per-terminal
attribution maps returned by `decompose_terminal_flows` sum to each
terminal's total outgoing positive flow — 60 units for Terminal 1 and 55
for Terminal 2 (in general the sum can undercount the outgoing flow, see
the counterexample). -/
theorem C9_amended_logistics_totals :
    (decompose_terminal_flows "Terminal 1"
        (flowOf (edmonds_karp build_logistics_graph "S" "T"))
        terminals warehouses shops).1
      = Res.ok [("Shop 1", 15), ("Shop 2", 10), ("Shop 4", 15),
          ("Shop 5", 5), ("Shop 7", 15)]
    ∧ (decompose_terminal_flows "Terminal 2"
        (flowOf (edmonds_karp build_logistics_graph "S" "T"))
        terminals warehouses shops).1
      = Res.ok [("Shop 7", 15), ("Shop 10", 20), ("Shop 11", 10),
          ("Shop 4", 10)]
    ∧ dvaluesSum [("Shop 1", 15), ("Shop 2", 10), ("Shop 4", 15),
        ("Shop 5", 5), ("Shop 7", 15)] = 60
    ∧ dvaluesSum [("Shop 7", 15), ("Shop 10", 20), ("Shop 11", 10),
        ("Shop 4", 10)] = 55
    ∧ posOutFlow (flowOf (edmonds_karp build_logistics_graph "S" "T"))
        "Terminal 1" = 60
    ∧ posOutFlow (flowOf (edmonds_karp build_logistics_graph "S" "T"))
        "Terminal 2" = 55 := by
  refine ⟨by rfl, by rfl, by rfl, by rfl, by rfl, by rfl⟩

end FlowSpec
